import Mathlib

/-!
shell-stm32: the line engine, the command table and the dispatcher

A shallow embedding of `stm32-bare-metal/shell.c`.

Conventions of the embedding.

* A C array is the list of its bytes, of exactly the declared length.  A
  `char *` is the list of the bytes from the pointed address to the end of
  the object it points into.
* A store outside an array does not change the array (it lands in memory
  that is not part of the object); the index of such a store is what the
  bound theorems speak about.  A read outside an object has no value: the
  function that performs it has no defined result from there on.
* The transport (`HAL_UART_Transmit`, reached by `uart_write` and, through
  `__io_putchar`, by `printf`) is the list of the bytes handed to it, in
  order.  Transmission errors are ignored by every caller in the source and
  are not modelled.
* A command function is given the argument strings and may read the command
  table (as `sh_help` does); it returns its `int` result and what it
  printed.  It does not write to the line buffer, the cursor or the table.
-/

namespace Shell

/-! ## Macros (shell.c, lines 25-28) -/

def SHELL_FUNC_LIST_MAX_SIZE : Nat := 16
def SHELL_CMD_MAX_SIZE : Nat := 16
def SHELL_ARGC_MAX : Nat := 8
def SHELL_BUFFER_SIZE : Nat := 40

/-! ## Characters -/

/-- The string terminator, written 0 in the source. -/
def NUL : Char := Char.ofNat 0
/-- The backspace character, written \b in the source. -/
def BS : Char := Char.ofNat 8
/-- The carriage return, written \r in the source. -/
def CR : Char := Char.ofNat 13
/-- The line feed, written \n in the source. -/
def LF : Char := Char.ofNat 10
/-- The space character. -/
def SP : Char := Char.ofNat 32

/-- The C string at the start of a memory region: the bytes before the first
terminator.  There is none when the region holds no terminator. -/
def cstr : List Char → Option (List Char)
  | [] => none
  | ch :: rest => if ch = NUL then some [] else (cstr rest).map (fun s => ch :: s)

/-- The library function strcmp, as the test `!strcmp(a, b)` uses it: `a` is
the content of a terminated string, `b` a memory region.  The answer is
`true` when strcmp returns 0.  The bytes are read pairwise up to the first
difference; there is no answer when that needs a byte of `b` outside its
object. -/
def strcmp : List Char → List Char → Option Bool
  | [], [] => none
  | [], y :: _ => some (decide (y = NUL))
  | _ :: _, [] => none
  | x :: xs, y :: ys => if x = y then strcmp xs ys else some false

/-! ## Types and variables (shell.c, lines 16-44) -/

/-- What a command function can read of the table: names and descriptions. -/
abbrev Listing := List (List Char × List Char)

/-- The type `int (*)(int argc, char ** argv)`: from the table listing, argc
and the strings argv[0..argc-1] to the returned int and the bytes printed. -/
abbrev shell_fn := Listing → Nat → List (List Char) → Int × List Char

/-- The struct shell_func_t. -/
structure shell_func_t where
  cmd : List Char
  func : shell_fn
  description : List Char

/-- The command table: `shell_func_list_size` and the slots of
`shell_func_list`, by index. -/
structure Registry where
  shell_func_list_size : Nat
  shell_func_list : Nat → shell_func_t

/-- The array `prompt`, terminator included (sizeof(prompt) = 11). -/
def prompt : List Char := "@STM32 >> ".toList ++ [NUL]

/-- The array `starting`, terminator included. -/
def starting : List Char :=
  [CR, LF, CR, LF] ++ "===== Shell =====".toList ++ [CR, LF, NUL]

/-- The array `backspace`, terminator included. -/
def backspace : List Char := [BS, SP, BS, NUL]

/-- State of the shell: the cursor `pos`, the array `buf` and the table. -/
structure State where
  pos : Nat
  buf : List Char
  reg : Registry

/-- One invocation of a command function: the index of the table entry, argc
and the strings at argv[0..argc-1] as the function reads them. -/
structure Call where
  idx : Nat
  argc : Nat
  argv : List (List Char)
  deriving DecidableEq, Repr

/-- Outcome of shell_exec.  `ret` is the returned uint8_t, or none when the
run reads outside an object; `cmd` is the memory at the argument afterwards,
`out` the bytes printed and `calls` the command functions invoked. -/
structure ExecResult where
  ret : Option Nat
  cmd : List Char
  out : List Char
  calls : List Call
  deriving DecidableEq, Repr

/-- Outcome of shell_char_received: the state afterwards, the bytes
transmitted, the memory handed to shell_exec (when it is called) and the
outcome of that call. -/
structure Step where
  st : State
  out : List Char
  line : Option (List Char)
  exec : Option ExecResult

/-! ## Functions -/

/-- The function uart_write (lines 68-73): `size` bytes of `s` go to the
transport. -/
def uart_write (s : List Char) (size : Nat) : List Char := s.take size

/-- The names and descriptions of the registered entries, in index order. -/
def listing (reg : Registry) : Listing :=
  (List.range reg.shell_func_list_size).map
    (fun i => ((reg.shell_func_list i).cmd, (reg.shell_func_list i).description))

/-- The function sh_help (lines 81-87). -/
def sh_help : shell_fn := fun l _ _ =>
  (0, (l.map (fun e => e.1 ++ " : ".toList ++ e.2 ++ [CR, LF])).flatten)

/-- The function shell_add (lines 131-141): the returned uint8_t and the
table afterwards. -/
def shell_add (reg : Registry) (cmd : List Char) (pfunc : shell_fn)
    (description : List Char) : Nat × Registry :=
  if reg.shell_func_list_size < SHELL_FUNC_LIST_MAX_SIZE then
    (0, { shell_func_list_size := reg.shell_func_list_size + 1,
          shell_func_list := Function.update reg.shell_func_list reg.shell_func_list_size
            { cmd := cmd, func := pfunc, description := description } })
  else
    (255, reg)

/-- The loop of lines 191-194.  The first argument is the memory from cmd + h
on; the result is the array header and h when the loop is left. -/
def header_loop : List Char → List Char → Nat → Option (List Char × Nat)
  | [], _, _ => none
  | ch :: rest, header, h =>
    if ch ≠ SP ∧ h < SHELL_CMD_MAX_SIZE then header_loop rest (header.set h ch) (h + 1)
    else some (header, h)

/-- The loop of lines 203-208.  The first argument is the memory from p on,
`off` is p - cmd; argv holds the offsets from cmd of argv[0..argc-1].  The
result is the memory from p on afterwards, argc and argv. -/
def tokenize : List Char → Nat → Nat → List Nat → Option (List Char × Nat × List Nat)
  | [], _, _, _ => none
  | ch :: rest, off, argc, argv =>
    if ch ≠ NUL ∧ argc < SHELL_ARGC_MAX then
      if ch = SP then
        (tokenize rest (off + 1) (argc + 1) (argv ++ [off + 1])).map
          (fun r => (NUL :: r.1, r.2))
      else
        (tokenize rest (off + 1) argc argv).map (fun r => (ch :: r.1, r.2))
    else some (ch :: rest, argc, argv)

/-- The strings at the offsets argv[0..argc-1] of the memory at cmd, each
read up to its terminator, as the command function reads them. -/
def read_args (cmd : List Char) : List Nat → Option (List (List Char))
  | [] => some []
  | o :: os =>
    match cstr (cmd.drop o), read_args cmd os with
    | some s, some ss => some (s :: ss)
    | _, _ => none

/-- A run of shell_exec that reads outside an object. -/
def undefined_run (cmd : List Char) : ExecResult :=
  { ret := none, cmd := cmd, out := [], calls := [] }

/-- Lines 200-210: the body run for the matching entry i. -/
def invoke (reg : Registry) (cmd : List Char) (i : Nat) : ExecResult :=
  match tokenize cmd 0 1 [0] with
  | none => undefined_run cmd
  | some (cmd1, argc, argv) =>
    match read_args cmd1 argv with
    | none => undefined_run cmd1
    | some args =>
      let r := (reg.shell_func_list i).func (listing reg) argc args
      { ret := some (r.1 % 256).toNat, cmd := cmd1, out := r.2,
        calls := [{ idx := i, argc := argc, argv := args }] }

/-- Lines 213-214. -/
def not_found (cmd : List Char) : ExecResult :=
  match cstr cmd with
  | none => undefined_run cmd
  | some s =>
    { ret := some 255, cmd := cmd,
      out := s ++ ": command not found".toList ++ [CR, LF], calls := [] }

/-- The loop of lines 198-212 followed by lines 213-214; `n` counts the
entries still to visit, i is the loop index. -/
def search (reg : Registry) (cmd header : List Char) : Nat → Nat → ExecResult
  | 0, _ => not_found cmd
  | n + 1, i =>
    match strcmp (reg.shell_func_list i).cmd header with
    | none => undefined_run cmd
    | some true => invoke reg cmd i
    | some false => search reg cmd header n (i + 1)

/-- The function shell_exec (lines 182-215). -/
def shell_exec (reg : Registry) (cmd : List Char) : ExecResult :=
  match header_loop cmd (List.replicate SHELL_CMD_MAX_SIZE NUL) 0 with
  | none => undefined_run cmd
  | some (header, h) => search reg cmd (header.set h NUL) reg.shell_func_list_size 0

/-- The function shell_char_received (lines 147-175); the global `c`, set by
the receive interrupt before the call, is the argument `c`.  The cursor is a
uint8_t: its increment of line 153 is overwritten by line 154 and the one of
line 170 stays below 256, so no reduction modulo 256 is needed.  The
returned value is always 0 and is left out.  When the call of shell_exec has
no defined result, nothing that follows it (the prompt) is modelled. -/
def shell_char_received (st : State) (c : Char) : Step :=
  if c = CR then
    let buf1 := st.buf.set st.pos NUL
    let r := shell_exec st.reg buf1
    { st := { st with buf := r.cmd, pos := 0 },
      out := [CR, LF] ++ r.out ++
        (if r.ret.isSome then uart_write prompt prompt.length else []),
      line := some buf1, exec := some r }
  else if c = BS then
    if st.pos > 0 then
      { st := { st with pos := st.pos - 1 }, out := uart_write backspace 3,
        line := none, exec := none }
    else
      { st := st, out := [], line := none, exec := none }
  else if st.pos < SHELL_BUFFER_SIZE then
    { st := { st with buf := st.buf.set st.pos c, pos := st.pos + 1 },
      out := uart_write [c] 1, line := none, exec := none }
  else
    { st := st, out := [], line := none, exec := none }

/-- The state after the characters of `cs` have been processed, one call of
shell_char_received each, in order. -/
def feed (st : State) : List Char → State
  | [] => st
  | c :: cs => feed (shell_char_received st c).st cs

/-- The function sh_example (lines 95-101). -/
def sh_example : shell_fn := fun _ argc argv =>
  (0, "argc = ".toList ++ (toString argc).toList ++ [CR, LF] ++
    ((List.range argc).map (fun i =>
      "arg nb ".toList ++ (toString i).toList ++ " = ".toList ++ argv.getD i [] ++
        [CR, LF])).flatten)

/-- The function shell_init (lines 108-122): the returned uint8_t, the table
afterwards and the bytes transmitted.  `rx_ok` tells whether
HAL_UART_Receive_IT answers HAL_OK. -/
def shell_init (reg : Registry) (rx_ok : Bool) : Nat × Registry × List Char :=
  let out := uart_write starting starting.length ++ uart_write prompt prompt.length
  let reg1 := (shell_add reg "help".toList sh_help "help".toList).2
  let reg2 := (shell_add reg1 "f".toList sh_example "Example command".toList).2
  (if rx_ok then 0 else 1, reg2, out)

/-- The variables at start-up: static storage is zero, the table is empty. -/
def boot : State :=
  { pos := 0, buf := List.replicate SHELL_BUFFER_SIZE NUL,
    reg := { shell_func_list_size := 0,
             shell_func_list := fun _ =>
               { cmd := [], func := fun _ _ _ => (0, []), description := [] } } }

/-- A table with every slot taken, all by the example command. -/
def full_table : Registry :=
  { shell_func_list_size := SHELL_FUNC_LIST_MAX_SIZE,
    shell_func_list := fun _ =>
      { cmd := "f".toList, func := sh_example, description := "Example command".toList } }

/-- The state once shell_init has run on the start-up variables. -/
def ready : State := { boot with reg := (shell_init boot.reg true).2.1 }

/-- The array buf right after start-up, holding the characters of `s` from
index 0 on (what typing `s` leaves in it). -/
def line_mem (s : List Char) : List Char :=
  s ++ List.replicate (SHELL_BUFFER_SIZE - s.length) NUL

/-- A command function that prints nothing and returns `r`. -/
def const_fn (r : Int) : shell_fn := fun _ _ _ => (r, [])

/-- The table after shell_init and one more registration: the command `x`,
whose function returns 256. -/
def table_256 : Registry :=
  (shell_add ready.reg "x".toList (const_fn 256) "returns 256".toList).2

/-- Lines 188-195: the array header once the terminator store of line 195 is
done, and the index h of that store; h is also the last index at which the
loop of line 191 reads cmd. -/
def header_scan (cmd : List Char) : Option (List Char × Nat) :=
  (header_loop cmd (List.replicate SHELL_CMD_MAX_SIZE NUL) 0).map
    (fun r => (r.1.set r.2 NUL, r.2))

/-- The index of the store into buf that shell_char_received performs (line
153 for the carriage return, line 170 for a stored character), when it
performs one. -/
def store_index (st : State) (c : Char) : Option Nat :=
  if c = CR then some st.pos
  else if c = BS then none
  else if st.pos < SHELL_BUFFER_SIZE then some st.pos
  else none

/-- The table after shell_init and one more registration: a command whose
name has SHELL_CMD_MAX_SIZE characters. -/
def table_long : Registry :=
  (shell_add ready.reg "abcdefghijklmnop".toList (const_fn 0) "long name".toList).2

/-! ## Reference notions used by the statements -/

/-- The bytes typed so far on the current line: the first `pos` bytes of buf. -/
def typed (st : State) : List Char := st.buf.take st.pos

/-- The reference editor: a backspace deletes the last character of the
string when there is one, any other character is appended. -/
def ref_edit (w : List Char) : List Char → List Char
  | [] => w
  | c :: cs => if c = BS then ref_edit w.dropLast cs else ref_edit (w ++ [c]) cs

/-- The header token of a line: its characters before the first space. -/
def header_token (line : List Char) : List Char := line.takeWhile (fun ch => decide (ch ≠ SP))

/-- The line cut at its first `b` spaces: at most `b + 1` pieces, the last of
which keeps its spaces once `b` cuts have been made. -/
def split_args : List Char → Nat → List (List Char)
  | [], _ => [[]]
  | ch :: rest, 0 => [ch :: rest]
  | ch :: rest, b + 1 =>
    if ch = SP then [] :: split_args rest b
    else
      match split_args rest (b + 1) with
      | [] => [[ch]]
      | p :: ps => (ch :: p) :: ps

/-- The position right after the i-th space of a line (0 for i = 0). -/
def after_space : List Char → Nat → Nat
  | _, 0 => 0
  | [], _ + 1 => 0
  | ch :: rest, i + 1 =>
    if ch = SP then 1 + after_space rest i else 1 + after_space rest (i + 1)

/-- The strings joined in order, with a single space between consecutive
ones. -/
def join_args : List (List Char) → List Char
  | [] => []
  | [a] => a
  | a :: b :: rest => a ++ SP :: join_args (b :: rest)

/-- No registered name contains the terminator: the names are C strings. -/
def names_ok (reg : Registry) : Prop :=
  ∀ i, i < reg.shell_func_list_size → NUL ∉ (reg.shell_func_list i).cmd

end Shell

namespace Shell

/-! ## Registration -/

theorem shell_add_full (reg : Registry) (cmd : List Char) (pfunc : shell_fn)
    (description : List Char)
    (h : ¬ reg.shell_func_list_size < SHELL_FUNC_LIST_MAX_SIZE) :
    shell_add reg cmd pfunc description = (255, reg) := by
  simp [shell_add, h]

theorem shell_add_room (reg : Registry) (cmd : List Char) (pfunc : shell_fn)
    (description : List Char)
    (h : reg.shell_func_list_size < SHELL_FUNC_LIST_MAX_SIZE) :
    shell_add reg cmd pfunc description =
      (0, { shell_func_list_size := reg.shell_func_list_size + 1,
            shell_func_list := Function.update reg.shell_func_list reg.shell_func_list_size
              { cmd := cmd, func := pfunc, description := description } }) := by
  simp [shell_add, h]

/-! ## Strings in memory -/

theorem cstr_append (a rest : List Char) (ha : NUL ∉ a) :
    cstr (a ++ NUL :: rest) = some a := by
  induction a with
  | nil => simp [cstr]
  | cons x xs ih =>
    have hx : x ≠ NUL := fun h => ha (by simp [h])
    have hxs : NUL ∉ xs := fun h => ha (by simp [h])
    simp [cstr, hx, ih hxs]

theorem cstr_some (m s : List Char) (h : cstr m = some s) :
    NUL ∉ s ∧ ∃ rest, m = s ++ NUL :: rest := by
  induction m generalizing s with
  | nil => simp [cstr] at h
  | cons x xs ih =>
    by_cases hx : x = NUL
    · simp [cstr, hx] at h
      subst h
      exact ⟨by simp, xs, by simp [hx]⟩
    · simp only [cstr, hx, if_false, Option.map_eq_some'] at h
      obtain ⟨s1, hs1, rfl⟩ := h
      obtain ⟨h1, rest, h2⟩ := ih s1 hs1
      refine ⟨?_, rest, by simp [h2]⟩
      intro hmem
      rcases List.mem_cons.1 hmem with h3 | h3
      · exact hx h3.symm
      · exact h1 h3

theorem cstr_none (m : List Char) (h : NUL ∉ m) : cstr m = none := by
  induction m with
  | nil => rfl
  | cons x xs ih =>
    have hx : x ≠ NUL := fun h1 => h (by simp [h1])
    have hxs : NUL ∉ xs := fun h1 => h (by simp [h1])
    simp [cstr, hx, ih hxs]

theorem set_eq_take_cons_drop (l : List Char) (n : Nat) (x : Char) (h : n < l.length) :
    l.set n x = l.take n ++ x :: l.drop (n + 1) := by
  induction l generalizing n with
  | nil => simp at h
  | cons y ys ih =>
    cases n with
    | zero => simp
    | succ k =>
      have hk : k < ys.length := by simpa using h
      simp [ih k hk]

theorem take_succ_set (l : List Char) (n : Nat) (x : Char) (h : n < l.length) :
    (l.set n x).take (n + 1) = l.take n ++ [x] := by
  induction l generalizing n with
  | nil => simp at h
  | cons y ys ih =>
    cases n with
    | zero => simp
    | succ k =>
      have hk : k < ys.length := by simpa using h
      simp [ih k hk]

theorem take_pred_eq_dropLast (l : List Char) (n : Nat) (h : n ≤ l.length) :
    l.take (n - 1) = (l.take n).dropLast := by
  induction l generalizing n with
  | nil => simp
  | cons y ys ih =>
    cases n with
    | zero => simp
    | succ k =>
      have hk : k ≤ ys.length := by simpa using h
      cases k with
      | zero => simp
      | succ j =>
        have := ih (j + 1) hk
        simp only [Nat.add_sub_cancel] at this
        cases ys with
        | nil => simp at hk
        | cons z zs =>
          simp only [Nat.add_sub_cancel, List.take_succ_cons] at this ⊢
          rw [List.dropLast_cons₂, ← this]

/-! ## The line engine -/

theorem step_cr (st : State) :
    shell_char_received st CR =
      { st := { st with buf := (shell_exec st.reg (st.buf.set st.pos NUL)).cmd, pos := 0 },
        out := [CR, LF] ++ (shell_exec st.reg (st.buf.set st.pos NUL)).out ++
          (if (shell_exec st.reg (st.buf.set st.pos NUL)).ret.isSome
            then uart_write prompt prompt.length else []),
        line := some (st.buf.set st.pos NUL),
        exec := some (shell_exec st.reg (st.buf.set st.pos NUL)) } := by
  simp [shell_char_received]

theorem step_bs (st : State) :
    shell_char_received st BS =
      if st.pos > 0 then
        { st := { st with pos := st.pos - 1 }, out := uart_write backspace 3,
          line := none, exec := none }
      else { st := st, out := [], line := none, exec := none } := by
  have h : BS ≠ CR := by decide
  simp [shell_char_received, h]

theorem step_other (st : State) (c : Char) (h1 : c ≠ CR) (h2 : c ≠ BS) :
    shell_char_received st c =
      if st.pos < SHELL_BUFFER_SIZE then
        { st := { st with buf := st.buf.set st.pos c, pos := st.pos + 1 },
          out := uart_write [c] 1, line := none, exec := none }
      else { st := st, out := [], line := none, exec := none } := by
  simp [shell_char_received, h1, h2]

theorem feed_append (st : State) (a b : List Char) :
    feed st (a ++ b) = feed (feed st a) b := by
  induction a generalizing st with
  | nil => rfl
  | cons x xs ih => simp [feed, ih]

theorem ref_edit_plain (w s : List Char) (hs : ∀ c ∈ s, c ≠ BS) :
    ref_edit w s = w ++ s := by
  induction s generalizing w with
  | nil => simp [ref_edit]
  | cons x xs ih =>
    have hx : x ≠ BS := hs x (by simp)
    have hxs : ∀ c ∈ xs, c ≠ BS := fun c hc => hs c (by simp [hc])
    simp [ref_edit, hx, ih _ hxs]

theorem feed_plain_pos (s : List Char) (st : State)
    (hs : ∀ c ∈ s, c ≠ CR ∧ c ≠ BS) (hlen : st.pos + s.length ≤ SHELL_BUFFER_SIZE) :
    (feed st s).pos = st.pos + s.length := by
  induction s generalizing st with
  | nil => simp [feed]
  | cons x xs ih =>
    have hx := hs x (by simp)
    have hxs : ∀ c ∈ xs, c ≠ CR ∧ c ≠ BS := fun c hc => hs c (by simp [hc])
    have hlt : st.pos < SHELL_BUFFER_SIZE := by
      simp only [List.length_cons] at hlen; omega
    simp only [feed, step_other st x hx.1 hx.2, hlt, if_true]
    rw [ih _ hxs]
    · simp only [List.length_cons]; omega
    · simp only [List.length_cons] at hlen ⊢; omega

theorem mem_dropLast_of {w : List Char} {c : Char} (h : c ∈ w.dropLast) : c ∈ w :=
  List.dropLast_subset w h

/-- One invariant of the line engine, kept by every character other than the
terminator while the cursor is below the capacity before each of them. -/
theorem feed_edit (cs : List Char) (st : State)
    (hbuf : st.buf.length = SHELL_BUFFER_SIZE) (hpos : st.pos ≤ SHELL_BUFFER_SIZE)
    (hnul : NUL ∉ typed st)
    (hcs : ∀ c ∈ cs, c ≠ CR ∧ c ≠ NUL)
    (hcur : ∀ k, k < cs.length → (feed st (cs.take k)).pos < SHELL_BUFFER_SIZE) :
    (feed st cs).buf.length = SHELL_BUFFER_SIZE ∧ (feed st cs).pos ≤ SHELL_BUFFER_SIZE ∧
      typed (feed st cs) = ref_edit (typed st) cs ∧ NUL ∉ typed (feed st cs) ∧
      (feed st cs).reg = st.reg := by
  induction cs generalizing st with
  | nil => exact ⟨hbuf, hpos, rfl, hnul, rfl⟩
  | cons x xs ih =>
    have hx := hcs x (by simp)
    have hxs : ∀ c ∈ xs, c ≠ CR ∧ c ≠ NUL := fun c hc => hcs c (by simp [hc])
    have h0 : st.pos < SHELL_BUFFER_SIZE := by
      have := hcur 0 (by simp)
      simpa [feed] using this
    have hnext : ∀ k, k < xs.length →
        (feed (shell_char_received st x).st (xs.take k)).pos < SHELL_BUFFER_SIZE := by
      intro k hk
      have := hcur (k + 1) (by simpa using hk)
      simpa [feed] using this
    by_cases hb : x = BS
    · subst hb
      have hst : (shell_char_received st BS).st = { st with pos := st.pos - 1 } := by
        rw [step_bs]
        by_cases hp : st.pos > 0
        · simp [hp]
        · have h00 : st.pos = 0 := by omega
          cases st
          simp only at h00
          subst h00
          simp
      have hty : typed (shell_char_received st BS).st = (typed st).dropLast := by
        rw [hst]
        simp only [typed]
        exact take_pred_eq_dropLast st.buf st.pos (by omega)
      have hn1 : NUL ∉ typed (shell_char_received st BS).st := by
        rw [hty]; exact fun h => hnul (mem_dropLast_of h)
      have := ih (shell_char_received st BS).st (by rw [hst]; exact hbuf)
        (by rw [hst]; show st.pos - 1 ≤ _; omega) hn1 hxs hnext
      obtain ⟨a1, a2, a3, a4, a5⟩ := this
      refine ⟨a1, a2, ?_, a4, ?_⟩
      · show typed (feed (shell_char_received st BS).st xs) = _
        rw [a3, hty]; simp [ref_edit]
      · show (feed (shell_char_received st BS).st xs).reg = _
        rw [a5, hst]
    · have hst : (shell_char_received st x).st =
          { st with buf := st.buf.set st.pos x, pos := st.pos + 1 } := by
        rw [step_other st x hx.1 hb]; simp [h0]
      have hty : typed (shell_char_received st x).st = typed st ++ [x] := by
        rw [hst]
        simp only [typed]
        exact take_succ_set st.buf st.pos x (by omega)
      have hn1 : NUL ∉ typed (shell_char_received st x).st := by
        rw [hty]
        intro h
        rcases List.mem_append.1 h with h1 | h1
        · exact hnul h1
        · simp at h1; exact hx.2 h1.symm
      have := ih (shell_char_received st x).st (by rw [hst]; simpa using hbuf)
        (by rw [hst]; show st.pos + 1 ≤ _; omega) hn1 hxs hnext
      obtain ⟨a1, a2, a3, a4, a5⟩ := this
      refine ⟨a1, a2, ?_, a4, ?_⟩
      · show typed (feed (shell_char_received st x).st xs) = _
        rw [a3, hty]; simp [ref_edit, hb]
      · show (feed (shell_char_received st x).st xs).reg = _
        rw [a5, hst]

/-- The string at the address handed to shell_exec when the terminator
arrives with the cursor inside the array. -/
theorem enter_line (st : State) (hbuf : st.buf.length = SHELL_BUFFER_SIZE)
    (hpos : st.pos < SHELL_BUFFER_SIZE) (hnul : NUL ∉ typed st) :
    (shell_char_received st CR).line = some (st.buf.set st.pos NUL) ∧
      cstr (st.buf.set st.pos NUL) = some (typed st) ∧
      (shell_char_received st CR).st.pos = 0 := by
  refine ⟨by rw [step_cr], ?_, by rw [step_cr]⟩
  rw [set_eq_take_cons_drop st.buf st.pos NUL (by omega)]
  exact cstr_append _ _ hnul

/-! ## The header scan -/

theorem set_append_here (a ys : List Char) (y x : Char) :
    (a ++ y :: ys).set a.length x = a ++ x :: ys := by
  induction a with
  | nil => simp
  | cons z zs ih => simp [ih]

theorem set_append_beyond (a b : List Char) (n : Nat) (x : Char) (h : a.length ≤ n) :
    (a ++ b).set n x = a ++ b.set (n - a.length) x := by
  induction a generalizing n with
  | nil => simp
  | cons z zs ih =>
    cases n with
    | zero => simp at h
    | succ k =>
      have hk : zs.length ≤ k := by simpa using h
      simp [ih k hk]

theorem header_walk (t m pre tail : List Char) (ht : ∀ c ∈ t, c ≠ SP)
    (hlen : pre.length + t.length ≤ SHELL_CMD_MAX_SIZE) (htail : t.length ≤ tail.length) :
    header_loop (t ++ m) (pre ++ tail) pre.length =
      header_loop m (pre ++ t ++ tail.drop t.length) (pre.length + t.length) := by
  induction t generalizing pre tail with
  | nil => simp
  | cons x xs ih =>
    have hx : x ≠ SP := ht x (by simp)
    have hxs : ∀ c ∈ xs, c ≠ SP := fun c hc => ht c (by simp [hc])
    simp only [List.length_cons] at hlen htail
    have hlt : pre.length < SHELL_CMD_MAX_SIZE := by omega
    cases tail with
    | nil => simp at htail
    | cons y ys =>
      simp only [List.length_cons] at htail
      have hc : x ≠ SP ∧ pre.length < SHELL_CMD_MAX_SIZE := ⟨hx, hlt⟩
      have := ih (pre ++ [x]) ys hxs (by simp; omega) (by omega)
      simp only [List.append_assoc, List.singleton_append, List.length_append,
        List.length_singleton] at this
      show header_loop (x :: (xs ++ m)) (pre ++ y :: ys) pre.length = _
      rw [header_loop, if_pos hc, set_append_here, this]
      simp only [List.append_assoc, List.cons_append, List.length_cons, List.drop_succ_cons]
      congr 1
      omega

theorem header_total (m hd : List Char) (h : Nat)
    (hm : SHELL_CMD_MAX_SIZE - h < m.length) : ∃ r, header_loop m hd h = some r := by
  induction m generalizing hd h with
  | nil => simp at hm
  | cons ch rest ih =>
    by_cases hc : ch ≠ SP ∧ h < SHELL_CMD_MAX_SIZE
    · rw [header_loop, if_pos hc]
      apply ih
      simp only [List.length_cons] at hm
      omega
    · rw [header_loop, if_neg hc]
      exact ⟨_, rfl⟩

theorem header_keeps (m pre tail hd1 : List Char) (h1 : Nat)
    (hlen : pre.length + tail.length = SHELL_CMD_MAX_SIZE)
    (hrun : header_loop m (pre ++ tail) pre.length = some (hd1, h1)) :
    ∃ tail1, hd1 = pre ++ tail1 ∧ pre.length ≤ h1 := by
  induction m generalizing pre tail with
  | nil => simp [header_loop] at hrun
  | cons ch rest ih =>
    by_cases hc : ch ≠ SP ∧ pre.length < SHELL_CMD_MAX_SIZE
    · rw [header_loop, if_pos hc] at hrun
      cases tail with
      | nil => simp at hlen; omega
      | cons y ys =>
        rw [set_append_here] at hrun
        have := ih (pre ++ [ch]) ys (by simp at hlen ⊢; omega)
          (by simpa using hrun)
        obtain ⟨tail1, e1, e2⟩ := this
        refine ⟨ch :: tail1, by simpa using e1, ?_⟩
        simp at e2
        omega
    · rw [header_loop, if_neg hc] at hrun
      simp only [Option.some.injEq, Prod.mk.injEq] at hrun
      exact ⟨tail, hrun.1.symm, by omega⟩

theorem strcmp_spec (name t rest : List Char) (hn : NUL ∉ name) (ht : NUL ∉ t) :
    strcmp name (t ++ NUL :: rest) = some (decide (name = t)) := by
  induction name generalizing t with
  | nil =>
    cases t with
    | nil => simp [strcmp]
    | cons y ys =>
      have hy : y ≠ NUL := fun h => ht (by simp [h])
      simp [strcmp, hy]
  | cons x xs ih =>
    have hx : x ≠ NUL := fun h => hn (by simp [h])
    have hxs : NUL ∉ xs := fun h => hn (by simp [h])
    cases t with
    | nil => simp [strcmp, hx]
    | cons y ys =>
      have hys : NUL ∉ ys := fun h => ht (by simp [h])
      by_cases hxy : x = y
      · simp [strcmp, hxy, ih ys hxs hys]
      · simp [strcmp, hxy]

theorem token_split (line : List Char) :
    line = header_token line ∨
      ∃ more, line = header_token line ++ SP :: more := by
  induction line with
  | nil => left; rfl
  | cons x xs ih =>
    by_cases hx : x = SP
    · right
      exact ⟨xs, by simp [header_token, hx]⟩
    · rcases ih with h | ⟨more, h⟩
      · left
        simp only [header_token, List.takeWhile_cons, hx, ne_eq, not_false_eq_true,
          decide_True, if_true]
        congr 1
      · right
        refine ⟨more, ?_⟩
        simp only [header_token, List.takeWhile_cons, hx, ne_eq, not_false_eq_true,
          decide_True, if_true, List.cons_append]
        congr 1

theorem token_no_space (line : List Char) : ∀ c ∈ header_token line, c ≠ SP := by
  intro c hc
  have := List.mem_takeWhile_imp hc
  simpa using this

theorem token_mem (line : List Char) (c : Char) (hc : c ∈ header_token line) : c ∈ line :=
  (List.takeWhile_sublist _).subset hc

theorem header_of_line (cmd line : List Char) (hline : cstr cmd = some line)
    (htok : (header_token line).length < SHELL_CMD_MAX_SIZE)
    (hobj : SP ∈ line ∨ SHELL_CMD_MAX_SIZE < cmd.length) :
    ∃ hd h rest, header_loop cmd (List.replicate SHELL_CMD_MAX_SIZE NUL) 0 = some (hd, h) ∧
      hd.set h NUL = header_token line ++ NUL :: rest := by
  obtain ⟨hn, stale, rfl⟩ := cstr_some cmd line hline
  have hnsp : NUL ≠ SP := by decide
  rcases token_split line with h | ⟨more, h⟩
  · -- the line has no space: the scan runs on past the terminator
    have hsize : SHELL_CMD_MAX_SIZE < (line ++ NUL :: stale).length := by
      rcases hobj with h1 | h1
      · rw [h] at h1; exact absurd rfl (token_no_space line SP h1)
      · exact h1
    have hcmd : line ++ NUL :: stale = (header_token line ++ [NUL]) ++ stale := by
      conv => lhs; rw [h]
      simp
    have hw := header_walk (header_token line ++ [NUL]) stale []
      (List.replicate SHELL_CMD_MAX_SIZE NUL)
      (by
        intro c hc
        rcases List.mem_append.1 hc with h1 | h1
        · exact token_no_space line c h1
        · simp at h1; rw [h1]; exact hnsp)
      (by simp; omega) (by simp; omega)
    simp only [List.nil_append, List.length_nil, Nat.zero_add] at hw
    have hlen2 : (line ++ NUL :: stale).length =
        (header_token line).length + 1 + stale.length := by
      rw [hcmd]; simp; omega
    obtain ⟨⟨hd1, h1⟩, hr⟩ := header_total stale
      (header_token line ++ [NUL] ++
        List.drop (header_token line ++ [NUL]).length (List.replicate SHELL_CMD_MAX_SIZE NUL))
      (header_token line ++ [NUL]).length (by simp; omega)
    obtain ⟨tail1, e1, e2⟩ := header_keeps stale (header_token line ++ [NUL])
      (List.drop (header_token line ++ [NUL]).length (List.replicate SHELL_CMD_MAX_SIZE NUL))
      hd1 h1 (by simp; omega) hr
    refine ⟨hd1, h1, tail1.set (h1 - (header_token line ++ [NUL]).length) NUL, ?_, ?_⟩
    · rw [hcmd, hw, hr]
    · rw [e1, set_append_beyond _ _ _ _ e2]; simp
  · -- the scan stops at the first space
    have hcmd : line ++ NUL :: stale =
        header_token line ++ (SP :: (more ++ NUL :: stale)) := by
      conv => lhs; rw [h]
      simp
    have hw := header_walk (header_token line) (SP :: (more ++ NUL :: stale)) []
      (List.replicate SHELL_CMD_MAX_SIZE NUL) (token_no_space line)
      (by simp; omega) (by simp; omega)
    simp only [List.nil_append, List.length_nil, Nat.zero_add] at hw
    have hstop : ¬ (SP ≠ SP ∧ (header_token line).length < SHELL_CMD_MAX_SIZE) := by simp
    obtain ⟨k, hk⟩ : ∃ k, SHELL_CMD_MAX_SIZE - (header_token line).length = k + 1 :=
      ⟨SHELL_CMD_MAX_SIZE - (header_token line).length - 1, by omega⟩
    refine ⟨header_token line ++
        List.drop (header_token line).length (List.replicate SHELL_CMD_MAX_SIZE NUL),
      (header_token line).length, List.replicate k NUL, ?_, ?_⟩
    · rw [hcmd, hw, header_loop, if_neg hstop]
    · rw [List.drop_replicate, hk, List.replicate_succ, set_append_here]

/-! ## Tokenization -/

theorem read_args_shift (x : Char) (m : List Char) (os : List Nat) :
    read_args (x :: m) (os.map (fun o => o + 1)) = read_args m os := by
  induction os with
  | nil => rfl
  | cons o os ih => simp [read_args, ih]

theorem read_args_cons_inv (m : List Char) (o : Nat) (os : List Nat)
    (r : List (List Char)) (h : read_args m (o :: os) = some r) :
    ∃ p ps, cstr (m.drop o) = some p ∧ read_args m os = some ps ∧ r = p :: ps := by
  simp only [read_args] at h
  cases h1 : cstr (m.drop o) with
  | none => simp [h1] at h
  | some p =>
    cases h2 : read_args m os with
    | none => simp [h1, h2] at h
    | some ps =>
      simp [h1, h2] at h
      exact ⟨p, ps, rfl, rfl, h.symm⟩

theorem read_args_length (m : List Char) (os : List Nat) (r : List (List Char))
    (h : read_args m os = some r) : r.length = os.length := by
  induction os generalizing r with
  | nil => simp [read_args] at h; simp [← h]
  | cons o os ih =>
    obtain ⟨p, ps, _, h2, rfl⟩ := read_args_cons_inv m o os r h
    simp [ih ps h2]

theorem tokenize_line (line stale : List Char) (off argc : Nat) (argv : List Nat)
    (hn : NUL ∉ line) :
    ∃ l os, tokenize (line ++ NUL :: stale) off argc argv =
        some (l ++ NUL :: stale, argc + os.length, argv ++ os.map (fun o => o + off)) ∧
      read_args (l ++ NUL :: stale) (0 :: os) =
        some (split_args line (SHELL_ARGC_MAX - argc)) := by
  induction line generalizing off argc argv with
  | nil =>
    refine ⟨[], [], ?_, ?_⟩
    · simp [tokenize]
    · simp [read_args, cstr, split_args]
  | cons x xs ih =>
    have hx : x ≠ NUL := fun h => hn (by simp [h])
    have hxs : NUL ∉ xs := fun h => hn (by simp [h])
    by_cases ha : argc < SHELL_ARGC_MAX
    · have hc : x ≠ NUL ∧ argc < SHELL_ARGC_MAX := ⟨hx, ha⟩
      obtain ⟨b, hb⟩ : ∃ b, SHELL_ARGC_MAX - argc = b + 1 :=
        ⟨SHELL_ARGC_MAX - argc - 1, by omega⟩
      by_cases hsp : x = SP
      · obtain ⟨l1, os1, e1, e2⟩ := ih (off + 1) (argc + 1) (argv ++ [off + 1]) hxs
        have hb1 : SHELL_ARGC_MAX - (argc + 1) = b := by omega
        rw [hb1] at e2
        refine ⟨NUL :: l1, 1 :: os1.map (fun o => o + 1), ?_, ?_⟩
        · show tokenize (x :: (xs ++ NUL :: stale)) off argc argv = _
          rw [tokenize, if_pos hc, if_pos hsp, e1]
          simp only [Option.map_some', List.cons_append, List.length_cons, List.length_map,
            List.map_cons, List.map_map, List.append_assoc, List.singleton_append,
            Option.some.injEq, Prod.mk.injEq, true_and]
          refine ⟨by omega, ?_⟩
          congr 1
          refine congrArg₂ _ (by omega) ?_
          apply List.map_congr_left
          intro o _
          simp only [Function.comp]
          omega
        · rw [hb, hsp]
          show read_args (NUL :: (l1 ++ NUL :: stale)) (0 :: (1 :: os1.map (fun o => o + 1))) = _
          have hsh := read_args_shift NUL (l1 ++ NUL :: stale) (0 :: os1)
          simp only [List.map_cons, Nat.zero_add] at hsh
          rw [read_args, hsh, e2]
          simp [cstr, split_args]
      · obtain ⟨l1, os1, e1, e2⟩ := ih (off + 1) argc argv hxs
        rw [hb] at e2
        obtain ⟨p, ps, f1, f2, f3⟩ := read_args_cons_inv _ _ _ _ e2
        refine ⟨x :: l1, os1.map (fun o => o + 1), ?_, ?_⟩
        · show tokenize (x :: (xs ++ NUL :: stale)) off argc argv = _
          rw [tokenize, if_pos hc, if_neg hsp, e1]
          simp only [Option.map_some', List.cons_append, List.length_map, List.map_map,
            Option.some.injEq, Prod.mk.injEq, true_and]
          congr 1
          apply List.map_congr_left
          intro o _
          simp only [Function.comp]
          omega
        · rw [hb]
          show read_args (x :: (l1 ++ NUL :: stale)) (0 :: os1.map (fun o => o + 1)) = _
          rw [read_args, read_args_shift, f2]
          simp only [List.drop_zero] at f1 ⊢
          simp [cstr, hx, f1, split_args, hsp, f3]
    · have hc : ¬ (x ≠ NUL ∧ argc < SHELL_ARGC_MAX) := fun h => ha h.2
      have hb : SHELL_ARGC_MAX - argc = 0 := by omega
      refine ⟨x :: xs, [], ?_, ?_⟩
      · show tokenize (x :: (xs ++ NUL :: stale)) off argc argv = _
        rw [tokenize, if_neg hc]
        simp
      · rw [hb]
        have hcs := cstr_append (x :: xs) stale hn
        simp only [List.cons_append] at hcs
        simp [read_args, hcs, split_args]

theorem split_args_head (line : List Char) (b : Nat) :
    (split_args line (b + 1)).head? = some (header_token line) := by
  induction line with
  | nil => simp [split_args, header_token]
  | cons x xs ih =>
    by_cases hx : x = SP
    · simp [split_args, header_token, hx]
    · simp only [split_args, hx, if_false]
      cases hs : split_args xs (b + 1) with
      | nil => rw [hs] at ih; simp at ih
      | cons p ps =>
        rw [hs] at ih
        simp only [List.head?_cons, Option.some.injEq] at ih
        simp [header_token, hx, ih]

/-! ## Lookup and dispatch -/

theorem invoke_line (reg : Registry) (cmd line : List Char) (j : Nat)
    (hline : cstr cmd = some line) :
    ∃ cmd1, invoke reg cmd j =
      { ret := some (((reg.shell_func_list j).func (listing reg)
            (split_args line (SHELL_ARGC_MAX - 1)).length
            (split_args line (SHELL_ARGC_MAX - 1))).1 % 256).toNat,
        cmd := cmd1,
        out := ((reg.shell_func_list j).func (listing reg)
            (split_args line (SHELL_ARGC_MAX - 1)).length
            (split_args line (SHELL_ARGC_MAX - 1))).2,
        calls := [{ idx := j, argc := (split_args line (SHELL_ARGC_MAX - 1)).length,
                    argv := split_args line (SHELL_ARGC_MAX - 1) }] } := by
  obtain ⟨hn, stale, rfl⟩ := cstr_some cmd line hline
  obtain ⟨l, os, e1, e2⟩ := tokenize_line line stale 0 1 [0] hn
  have hlen := read_args_length _ _ _ e2
  simp only [List.length_cons] at hlen
  have hmap : List.map (fun o => o + 0) os = os := by simp
  refine ⟨l ++ NUL :: stale, ?_⟩
  simp only [invoke, e1, hmap, List.singleton_append, e2, hlen]
  have : 1 + os.length = os.length + 1 := by omega
  rw [this]

theorem search_hit (reg : Registry) (cmd t rest : List Char) (hnt : NUL ∉ t) (n i j : Nat)
    (hnames : ∀ k, i ≤ k → k < i + n → NUL ∉ (reg.shell_func_list k).cmd)
    (hij : i ≤ j) (hjn : j < i + n) (hname : (reg.shell_func_list j).cmd = t)
    (hfirst : ∀ k, i ≤ k → k < j → (reg.shell_func_list k).cmd ≠ t) :
    search reg cmd (t ++ NUL :: rest) n i = invoke reg cmd j := by
  induction n generalizing i with
  | zero => omega
  | succ n ih =>
    rw [search, strcmp_spec _ t rest (hnames i (le_refl _) (by omega)) hnt]
    by_cases hi : i = j
    · subst hi
      simp [hname]
    · have hne := hfirst i (le_refl _) (by omega)
      simp only [hne, decide_False]
      exact ih (i + 1) (fun k h1 h2 => hnames k (by omega) (by omega)) (by omega) (by omega)
        (fun k h1 h2 => hfirst k (by omega) h2)

theorem search_miss (reg : Registry) (cmd t rest : List Char) (hnt : NUL ∉ t) (n i : Nat)
    (hnames : ∀ k, i ≤ k → k < i + n → NUL ∉ (reg.shell_func_list k).cmd)
    (hnone : ∀ k, i ≤ k → k < i + n → (reg.shell_func_list k).cmd ≠ t) :
    search reg cmd (t ++ NUL :: rest) n i = not_found cmd := by
  induction n generalizing i with
  | zero => rfl
  | succ n ih =>
    rw [search, strcmp_spec _ t rest (hnames i (le_refl _) (by omega)) hnt]
    have hne := hnone i (le_refl _) (by omega)
    simp only [hne, decide_False]
    exact ih (i + 1) (fun k h1 h2 => hnames k (by omega) (by omega))
      (fun k h1 h2 => hnone k (by omega) (by omega))

theorem token_no_nul (cmd line : List Char) (hline : cstr cmd = some line) :
    NUL ∉ header_token line :=
  fun h => (cstr_some cmd line hline).1 (token_mem line NUL h)

/-- Dispatch of a line whose header token is the name of an entry: the body
of the earliest such entry runs on the line cut at its first
SHELL_ARGC_MAX - 1 spaces. -/
theorem exec_hit (reg : Registry) (cmd line : List Char) (j : Nat)
    (hreg : names_ok reg) (hline : cstr cmd = some line)
    (htok : (header_token line).length < SHELL_CMD_MAX_SIZE)
    (hobj : SP ∈ line ∨ SHELL_CMD_MAX_SIZE < cmd.length)
    (hj : j < reg.shell_func_list_size)
    (hname : (reg.shell_func_list j).cmd = header_token line)
    (hfirst : ∀ k, k < j → (reg.shell_func_list k).cmd ≠ header_token line) :
    ∃ cmd1, shell_exec reg cmd =
      { ret := some (((reg.shell_func_list j).func (listing reg)
            (split_args line (SHELL_ARGC_MAX - 1)).length
            (split_args line (SHELL_ARGC_MAX - 1))).1 % 256).toNat,
        cmd := cmd1,
        out := ((reg.shell_func_list j).func (listing reg)
            (split_args line (SHELL_ARGC_MAX - 1)).length
            (split_args line (SHELL_ARGC_MAX - 1))).2,
        calls := [{ idx := j, argc := (split_args line (SHELL_ARGC_MAX - 1)).length,
                    argv := split_args line (SHELL_ARGC_MAX - 1) }] } := by
  obtain ⟨hd, h, rest, e1, e2⟩ := header_of_line cmd line hline htok hobj
  obtain ⟨cmd1, e3⟩ := invoke_line reg cmd line j hline
  refine ⟨cmd1, ?_⟩
  rw [← e3]
  simp only [shell_exec, e1, e2]
  exact search_hit reg cmd _ rest (token_no_nul cmd line hline) _ 0 j
    (fun k _ h2 => hreg k (by omega)) (Nat.zero_le _) (by omega) hname
    (fun k _ h2 => hfirst k h2)

/-- Dispatch of a line whose header token is the name of no entry. -/
theorem exec_miss (reg : Registry) (cmd line : List Char)
    (hreg : names_ok reg) (hline : cstr cmd = some line)
    (htok : (header_token line).length < SHELL_CMD_MAX_SIZE)
    (hobj : SP ∈ line ∨ SHELL_CMD_MAX_SIZE < cmd.length)
    (hnone : ∀ k, k < reg.shell_func_list_size →
      (reg.shell_func_list k).cmd ≠ header_token line) :
    shell_exec reg cmd =
      { ret := some 255, cmd := cmd,
        out := line ++ ": command not found".toList ++ [CR, LF], calls := [] } := by
  obtain ⟨hd, h, rest, e1, e2⟩ := header_of_line cmd line hline htok hobj
  simp only [shell_exec, e1, e2]
  rw [search_miss reg cmd _ rest (token_no_nul cmd line hline) _ 0
    (fun k _ h2 => hreg k (by omega)) (fun k _ h2 => hnone k (by omega))]
  simp [not_found, hline]

/-! ## Claims on the line engine and on registration -/

/-- C1: from any state with the cursor at 0 (and any stale content in the
40-byte buffer), typing fewer than SHELL_BUFFER_SIZE characters, none of them
carriage return, backspace or NUL, and then the carriage return hands to
shell_exec a memory whose string is exactly the characters typed, and leaves
the cursor at 0. -/
theorem C1_line_is_what_was_typed (st : State) (s : List Char)
    (hpos : st.pos = 0) (hbuf : st.buf.length = SHELL_BUFFER_SIZE)
    (hs : ∀ c ∈ s, c ≠ CR ∧ c ≠ BS ∧ c ≠ NUL) (hlen : s.length < SHELL_BUFFER_SIZE) :
    ∃ m, (shell_char_received (feed st s) CR).line = some m ∧ cstr m = some s ∧
      (shell_char_received (feed st s) CR).st.pos = 0 := by
  have hplain : ∀ c ∈ s, c ≠ CR ∧ c ≠ BS := fun c hc => ⟨(hs c hc).1, (hs c hc).2.1⟩
  have hcur : ∀ k, k < s.length → (feed st (s.take k)).pos < SHELL_BUFFER_SIZE := by
    intro k hk
    rw [feed_plain_pos (s.take k) st (fun c hc => hplain c (List.mem_of_mem_take hc))]
    · simp only [List.length_take, hpos]; omega
    · simp only [List.length_take, hpos]; omega
  have hty0 : typed st = [] := by simp [typed, hpos]
  obtain ⟨a1, _, a3, a4, _⟩ := feed_edit s st hbuf (by omega) (by simp [hty0])
    (fun c hc => ⟨(hs c hc).1, (hs c hc).2.2⟩) hcur
  have hp : (feed st s).pos < SHELL_BUFFER_SIZE := by
    rw [feed_plain_pos s st hplain (by omega)]; omega
  obtain ⟨b1, b2, b3⟩ := enter_line (feed st s) a1 hp a4
  refine ⟨_, b1, ?_, b3⟩
  rw [b2, a3, hty0, ref_edit_plain [] s (fun c hc => (hs c hc).2.1)]
  simp

theorem C1_line_is_what_was_typed_witness :
    ready.pos = 0 ∧ ready.buf.length = SHELL_BUFFER_SIZE ∧
      (∀ c ∈ "help".toList, c ≠ CR ∧ c ≠ BS ∧ c ≠ NUL) ∧
      "help".toList.length < SHELL_BUFFER_SIZE ∧
      ∃ m, (shell_char_received (feed ready "help".toList) CR).line = some m ∧
        cstr m = some "help".toList ∧
        (shell_char_received (feed ready "help".toList) CR).st.pos = 0 :=
  ⟨rfl, by decide, by decide, by decide,
    C1_line_is_what_was_typed ready "help".toList rfl (by decide) (by decide) (by decide)⟩

/-- C5: with SHELL_FUNC_LIST_MAX_SIZE entries registered, shell_add returns a
non-zero status and leaves the count and every slot of the table as they
were. -/
theorem C5_add_to_full_table (reg : Registry) (cmd : List Char) (pfunc : shell_fn)
    (description : List Char)
    (hfull : reg.shell_func_list_size = SHELL_FUNC_LIST_MAX_SIZE) :
    (shell_add reg cmd pfunc description).1 ≠ 0 ∧
      (shell_add reg cmd pfunc description).2 = reg := by
  rw [shell_add_full reg cmd pfunc description (by omega)]
  exact ⟨by simp, rfl⟩

theorem C5_add_to_full_table_witness :
    full_table.shell_func_list_size = SHELL_FUNC_LIST_MAX_SIZE ∧
      (shell_add full_table "led".toList sh_example "Toggle".toList).1 ≠ 0 ∧
      (shell_add full_table "led".toList sh_example "Toggle".toList).2 = full_table :=
  ⟨rfl, C5_add_to_full_table full_table "led".toList sh_example "Toggle".toList rfl⟩

/-- C6: with n < SHELL_FUNC_LIST_MAX_SIZE entries registered, shell_add
returns 0, the count becomes n + 1, slot n holds the given name, function and
description and every other slot is unchanged; shell_add returns 0 exactly
when the count is below SHELL_FUNC_LIST_MAX_SIZE. -/
theorem C6_add_appends (reg : Registry) (cmd : List Char) (pfunc : shell_fn)
    (description : List Char) :
    (reg.shell_func_list_size < SHELL_FUNC_LIST_MAX_SIZE →
      (shell_add reg cmd pfunc description).1 = 0 ∧
      (shell_add reg cmd pfunc description).2.shell_func_list_size =
        reg.shell_func_list_size + 1 ∧
      (shell_add reg cmd pfunc description).2.shell_func_list reg.shell_func_list_size =
        { cmd := cmd, func := pfunc, description := description } ∧
      ∀ i, i ≠ reg.shell_func_list_size →
        (shell_add reg cmd pfunc description).2.shell_func_list i =
          reg.shell_func_list i) ∧
    ((shell_add reg cmd pfunc description).1 = 0 ↔
      reg.shell_func_list_size < SHELL_FUNC_LIST_MAX_SIZE) := by
  constructor
  · intro h
    rw [shell_add_room reg cmd pfunc description h]
    refine ⟨rfl, rfl, by simp, ?_⟩
    intro i hi
    simp [Function.update, hi]
  · by_cases h : reg.shell_func_list_size < SHELL_FUNC_LIST_MAX_SIZE
    · rw [shell_add_room reg cmd pfunc description h]; simp [h]
    · rw [shell_add_full reg cmd pfunc description h]; simp [h]

theorem C6_add_appends_witness :
    boot.reg.shell_func_list_size < SHELL_FUNC_LIST_MAX_SIZE ∧
      (shell_add boot.reg "help".toList sh_help "help".toList).1 = 0 ∧
      (shell_add boot.reg "help".toList sh_help "help".toList).2.shell_func_list_size =
        boot.reg.shell_func_list_size + 1 :=
  ⟨by decide,
    ((C6_add_appends boot.reg "help".toList sh_help "help".toList).1 (by decide)).1,
    ((C6_add_appends boot.reg "help".toList sh_help "help".toList).1 (by decide)).2.1⟩

/-- C10: with the cursor at 0, a backspace leaves the buffer and the cursor
(the whole state) unchanged and transmits nothing. -/
theorem C10_backspace_at_zero (st : State) (hpos : st.pos = 0) :
    (shell_char_received st BS).st = st ∧ (shell_char_received st BS).out = [] := by
  rw [step_bs]
  simp [hpos]

theorem C10_backspace_at_zero_witness :
    ready.pos = 0 ∧ (shell_char_received ready BS).st = ready ∧
      (shell_char_received ready BS).out = [] :=
  ⟨rfl, C10_backspace_at_zero ready rfl⟩

/-- C9: a backspace at cursor n ≥ 1 makes the cursor n - 1, leaves the
bytes of the buffer alone and so removes exactly the last typed character;
and for every sequence of characters other than carriage return and NUL
(backspaces included) during which the cursor stays below SHELL_BUFFER_SIZE,
the carriage return that follows hands to shell_exec the string that the
reference editor computes from what was typed before. -/
theorem C9_backspace_editing (st1 st : State) (cs : List Char)
    (h1 : 1 ≤ st1.pos)
    (hbuf : st.buf.length = SHELL_BUFFER_SIZE) (hnul : NUL ∉ typed st)
    (hcs : ∀ c ∈ cs, c ≠ CR ∧ c ≠ NUL)
    (hcur : ∀ k, k ≤ cs.length → (feed st (cs.take k)).pos < SHELL_BUFFER_SIZE) :
    ((shell_char_received st1 BS).st.pos = st1.pos - 1 ∧
      (shell_char_received st1 BS).st.buf = st1.buf ∧
      (st1.pos ≤ st1.buf.length →
        typed (shell_char_received st1 BS).st = (typed st1).dropLast)) ∧
    ∃ m, (shell_char_received (feed st cs) CR).line = some m ∧
      cstr m = some (ref_edit (typed st) cs) := by
  constructor
  · have hp : st1.pos > 0 := by omega
    rw [step_bs]
    simp only [hp, if_true, true_and]
    intro hle
    exact take_pred_eq_dropLast st1.buf st1.pos hle
  · have h0 : st.pos < SHELL_BUFFER_SIZE := by
      have := hcur 0 (by omega)
      simpa [feed] using this
    obtain ⟨a1, _, a3, a4, _⟩ := feed_edit cs st hbuf (by omega) hnul hcs
      (fun k hk => hcur k (by omega))
    have hp : (feed st cs).pos < SHELL_BUFFER_SIZE := by
      have := hcur cs.length (le_refl _)
      simpa using this
    obtain ⟨b1, b2, _⟩ := enter_line (feed st cs) a1 hp a4
    exact ⟨_, b1, by rw [b2, a3]⟩

theorem C9_backspace_editing_witness :
    1 ≤ (feed ready "ab".toList).pos ∧
      ready.buf.length = SHELL_BUFFER_SIZE ∧ NUL ∉ typed ready ∧
      (∀ c ∈ [Char.ofNat 104, Char.ofNat 120, BS, Char.ofNat 105], c ≠ CR ∧ c ≠ NUL) ∧
      (∀ k, k ≤ [Char.ofNat 104, Char.ofNat 120, BS, Char.ofNat 105].length →
        (feed ready ([Char.ofNat 104, Char.ofNat 120, BS, Char.ofNat 105].take k)).pos
          < SHELL_BUFFER_SIZE) ∧
      ((shell_char_received (feed ready "ab".toList) BS).st.pos =
          (feed ready "ab".toList).pos - 1 ∧
        (shell_char_received (feed ready "ab".toList) BS).st.buf =
          (feed ready "ab".toList).buf ∧
        ((feed ready "ab".toList).pos ≤ (feed ready "ab".toList).buf.length →
          typed (shell_char_received (feed ready "ab".toList) BS).st =
            (typed (feed ready "ab".toList)).dropLast)) ∧
      ∃ m, (shell_char_received
          (feed ready [Char.ofNat 104, Char.ofNat 120, BS, Char.ofNat 105]) CR).line = some m ∧
        cstr m = some (ref_edit (typed ready)
          [Char.ofNat 104, Char.ofNat 120, BS, Char.ofNat 105]) :=
  ⟨by decide, by decide, by decide, by decide, by decide,
    C9_backspace_editing (feed ready "ab".toList) ready
      [Char.ofNat 104, Char.ofNat 120, BS, Char.ofNat 105]
      (by decide) (by decide) (by decide) (by decide) (by decide)⟩

theorem earliest_entry (P : Nat → Prop) (n : Nat) (h : ∃ k, k < n ∧ P k) :
    ∃ j, j < n ∧ P j ∧ ∀ k, k < j → ¬ P k := by
  classical
  refine ⟨Nat.find h, (Nat.find_spec h).1, (Nat.find_spec h).2, ?_⟩
  intro k hk hp
  exact Nat.find_min h hk ⟨by have := (Nat.find_spec h).1; omega, hp⟩

theorem names_ok_ready : names_ok ready.reg := by
  intro i hi
  have h2 : i < 2 := hi
  interval_cases i <;> decide

theorem names_ok_table_256 : names_ok table_256 := by
  intro i hi
  have h2 : i < 3 := hi
  interval_cases i <;> decide

/-- C3: for a line whose header token t (its characters before the first
space) is shorter than SHELL_CMD_MAX_SIZE, held in an object the header scan
stays inside: when some registered name equals t, shell_exec returns after
exactly one invocation, that of the earliest entry named t; when no
registered name equals t, no command function is invoked. -/
theorem C3_first_match_wins (reg : Registry) (cmd line : List Char)
    (hreg : names_ok reg) (hline : cstr cmd = some line)
    (htok : (header_token line).length < SHELL_CMD_MAX_SIZE)
    (hobj : SP ∈ line ∨ SHELL_CMD_MAX_SIZE < cmd.length) :
    ((∃ k, k < reg.shell_func_list_size ∧ (reg.shell_func_list k).cmd = header_token line) →
      ∃ j argc argv, j < reg.shell_func_list_size ∧
        (reg.shell_func_list j).cmd = header_token line ∧
        (∀ k, k < j → (reg.shell_func_list k).cmd ≠ header_token line) ∧
        (shell_exec reg cmd).calls = [{ idx := j, argc := argc, argv := argv }] ∧
        (shell_exec reg cmd).ret.isSome = true) ∧
    ((∀ k, k < reg.shell_func_list_size → (reg.shell_func_list k).cmd ≠ header_token line) →
      (shell_exec reg cmd).calls = []) := by
  constructor
  · intro hex
    obtain ⟨j, hj, hname, hfirst⟩ :=
      earliest_entry (fun k => (reg.shell_func_list k).cmd = header_token line) _ hex
    obtain ⟨cmd1, e⟩ := exec_hit reg cmd line j hreg hline htok hobj hj hname hfirst
    exact ⟨j, _, _, hj, hname, hfirst, by rw [e], by rw [e]; rfl⟩
  · intro hnone
    rw [exec_miss reg cmd line hreg hline htok hobj hnone]

theorem C3_first_match_wins_witness :
    names_ok ready.reg ∧ cstr (line_mem "help".toList) = some "help".toList ∧
      (header_token "help".toList).length < SHELL_CMD_MAX_SIZE ∧
      (SP ∈ "help".toList ∨ SHELL_CMD_MAX_SIZE < (line_mem "help".toList).length) ∧
      (∃ k, k < ready.reg.shell_func_list_size ∧
        (ready.reg.shell_func_list k).cmd = header_token "help".toList) ∧
      ∃ j argc argv, j < ready.reg.shell_func_list_size ∧
        (ready.reg.shell_func_list j).cmd = header_token "help".toList ∧
        (∀ k, k < j → (ready.reg.shell_func_list k).cmd ≠ header_token "help".toList) ∧
        (shell_exec ready.reg (line_mem "help".toList)).calls =
          [{ idx := j, argc := argc, argv := argv }] ∧
        (shell_exec ready.reg (line_mem "help".toList)).ret.isSome = true :=
  ⟨names_ok_ready, by decide, by decide, Or.inr (by decide), ⟨0, by decide, by decide⟩,
    (C3_first_match_wins ready.reg (line_mem "help".toList) "help".toList names_ok_ready
      (by decide) (by decide) (Or.inr (by decide))).1 ⟨0, by decide, by decide⟩⟩

/-- C2, as stated, fails: on the line "f a b", with the table of shell_init,
the command function of f is invoked once with argc 3 and reads the strings
"f", "a", "b"; argument 0 is not the whole line "f a b". -/
theorem C2_argv0_is_not_the_line :
    (shell_exec ready.reg (line_mem "f a b".toList)).calls =
        [{ idx := 1, argc := 3, argv := ["f".toList, "a".toList, "b".toList] }] ∧
      ¬ ∃ i, (shell_exec ready.reg (line_mem "f a b".toList)).calls =
        [{ idx := i, argc := 3, argv := ["f a b".toList, "a".toList, "b".toList] }] := by
  have h : (shell_exec ready.reg (line_mem "f a b".toList)).calls =
      [{ idx := 1, argc := 3, argv := ["f".toList, "a".toList, "b".toList] }] := by decide
  refine ⟨h, ?_⟩
  rintro ⟨i, hi⟩
  rw [h] at hi
  simp only [List.cons.injEq, Call.mk.injEq, and_true, true_and] at hi
  exact absurd hi.2 (by decide)

/-- C2, amended: when "f" is registered, shell_exec on the line "f a b"
invokes once the function of the earliest entry named "f", with argc 3 and
the strings "f", "a", "b"; and for every line whose header token (shorter
than SHELL_CMD_MAX_SIZE) is registered, argument 0 as the function reads it
is the header token, the line up to its first space. -/
theorem C2_argv0_is_the_header (reg : Registry) (stale : List Char) (j : Nat)
    (hreg : names_ok reg) (hj : j < reg.shell_func_list_size)
    (hname : (reg.shell_func_list j).cmd = "f".toList)
    (hfirst : ∀ k, k < j → (reg.shell_func_list k).cmd ≠ "f".toList) :
    (shell_exec reg ("f a b".toList ++ NUL :: stale)).calls =
        [{ idx := j, argc := 3, argv := ["f".toList, "a".toList, "b".toList] }] ∧
    ∀ (cmd line : List Char) (i : Nat), cstr cmd = some line →
      (header_token line).length < SHELL_CMD_MAX_SIZE →
      (SP ∈ line ∨ SHELL_CMD_MAX_SIZE < cmd.length) →
      i < reg.shell_func_list_size →
      (reg.shell_func_list i).cmd = header_token line →
      (∀ k, k < i → (reg.shell_func_list k).cmd ≠ header_token line) →
      ∃ argc argv, (shell_exec reg cmd).calls = [{ idx := i, argc := argc, argv := argv }] ∧
        argv.head? = some (header_token line) := by
  constructor
  · have hline : cstr ("f a b".toList ++ NUL :: stale) = some "f a b".toList :=
      cstr_append _ _ (by decide)
    have htk : header_token "f a b".toList = "f".toList := by decide
    obtain ⟨cmd1, e⟩ := exec_hit reg _ "f a b".toList j hreg hline (by decide)
      (Or.inl (by decide)) hj (by rw [htk]; exact hname) (by rw [htk]; exact hfirst)
    rw [e]
    have hsp : split_args "f a b".toList (SHELL_ARGC_MAX - 1) =
        ["f".toList, "a".toList, "b".toList] := by decide
    rw [hsp]
    rfl
  · intro cmd line i hline htok hobj hi hn hf
    obtain ⟨cmd1, e⟩ := exec_hit reg cmd line i hreg hline htok hobj hi hn hf
    refine ⟨_, _, by rw [e], ?_⟩
    exact split_args_head line 6

theorem C2_argv0_is_the_header_witness :
    names_ok ready.reg ∧ 1 < ready.reg.shell_func_list_size ∧
      (ready.reg.shell_func_list 1).cmd = "f".toList ∧
      (∀ k, k < 1 → (ready.reg.shell_func_list k).cmd ≠ "f".toList) ∧
      (shell_exec ready.reg ("f a b".toList ++ NUL :: [])).calls =
        [{ idx := 1, argc := 3, argv := ["f".toList, "a".toList, "b".toList] }] :=
  ⟨names_ok_ready, by decide, by decide, by decide,
    (C2_argv0_is_the_header ready.reg [] 1 names_ok_ready (by decide) (by decide)
      (by decide)).1⟩

/-- C4, as stated, fails: on the line "foo bar", with the table of
shell_init, the message names the whole line, not the command name "foo". -/
theorem C4_message_names_the_line :
    (∀ k, k < ready.reg.shell_func_list_size →
        (ready.reg.shell_func_list k).cmd ≠ header_token "foo bar".toList) ∧
      (shell_exec ready.reg (line_mem "foo bar".toList)).out =
        "foo bar: command not found".toList ++ [CR, LF] ∧
      (shell_exec ready.reg (line_mem "foo bar".toList)).out ≠
        header_token "foo bar".toList ++ ": command not found".toList ++ [CR, LF] := by
  refine ⟨by decide, by decide, by decide⟩

/-- C4, amended: for a line whose header token is shorter than
SHELL_CMD_MAX_SIZE and is the name of no entry, shell_exec invokes no command
function, returns 255 (non-zero) and prints the whole line followed by
": command not found" and "\r\n"; the message begins with the command name
alone when the line has no space, as for the line "unknown". -/
theorem C4_not_found (reg : Registry) (cmd line : List Char)
    (hreg : names_ok reg) (hline : cstr cmd = some line)
    (htok : (header_token line).length < SHELL_CMD_MAX_SIZE)
    (hobj : SP ∈ line ∨ SHELL_CMD_MAX_SIZE < cmd.length)
    (hnone : ∀ k, k < reg.shell_func_list_size →
      (reg.shell_func_list k).cmd ≠ header_token line) :
    (shell_exec reg cmd).calls = [] ∧ (shell_exec reg cmd).ret = some 255 ∧
      (shell_exec reg cmd).out = line ++ ": command not found".toList ++ [CR, LF] ∧
      (SP ∉ line → (shell_exec reg cmd).out =
        header_token line ++ ": command not found".toList ++ [CR, LF]) ∧
      (line = "unknown".toList → (shell_exec reg cmd).out =
        "unknown: command not found".toList ++ [CR, LF]) := by
  rw [exec_miss reg cmd line hreg hline htok hobj hnone]
  refine ⟨rfl, rfl, rfl, ?_, ?_⟩
  · intro hsp
    rcases token_split line with h | ⟨more, h⟩
    · rw [← h]
    · exact absurd (by rw [h]; simp) hsp
  · intro hl
    subst hl
    show "unknown".toList ++ ": command not found".toList ++ [CR, LF] =
      "unknown: command not found".toList ++ [CR, LF]
    decide

theorem C4_not_found_witness :
    names_ok ready.reg ∧ cstr (line_mem "unknown".toList) = some "unknown".toList ∧
      (header_token "unknown".toList).length < SHELL_CMD_MAX_SIZE ∧
      (SP ∈ "unknown".toList ∨ SHELL_CMD_MAX_SIZE < (line_mem "unknown".toList).length) ∧
      (∀ k, k < ready.reg.shell_func_list_size →
        (ready.reg.shell_func_list k).cmd ≠ header_token "unknown".toList) ∧
      (shell_exec ready.reg (line_mem "unknown".toList)).calls = [] ∧
      (shell_exec ready.reg (line_mem "unknown".toList)).ret = some 255 ∧
      (shell_exec ready.reg (line_mem "unknown".toList)).out =
        "unknown: command not found".toList ++ [CR, LF] :=
  ⟨names_ok_ready, by decide, by decide, Or.inr (by decide), by decide,
    (C4_not_found ready.reg (line_mem "unknown".toList) "unknown".toList names_ok_ready
      (by decide) (by decide) (Or.inr (by decide)) (by decide)).1,
    (C4_not_found ready.reg (line_mem "unknown".toList) "unknown".toList names_ok_ready
      (by decide) (by decide) (Or.inr (by decide)) (by decide)).2.1,
    (C4_not_found ready.reg (line_mem "unknown".toList) "unknown".toList names_ok_ready
      (by decide) (by decide) (Or.inr (by decide)) (by decide)).2.2.2.2 rfl⟩

/-- C7, as stated, fails: the command `x` of table_256 is dispatched, its
function returns 256, and shell_exec returns 0. -/
theorem C7_result_is_cut_to_a_byte :
    (shell_exec table_256 (line_mem "x".toList)).calls =
        [{ idx := 2, argc := 1, argv := ["x".toList] }] ∧
      ((table_256.shell_func_list 2).func (listing table_256) 1 ["x".toList]).1 = 256 ∧
      (shell_exec table_256 (line_mem "x".toList)).ret = some 0 := by
  refine ⟨by decide, by decide, by decide⟩

/-- C7, amended: for every line dispatched to a registered command function
that returns the int r, shell_exec returns r modulo 256 (its return type is
uint8_t), which is r itself exactly when 0 ≤ r < 256. -/
theorem C7_result_mod_256 (reg : Registry) (cmd line : List Char) (j : Nat)
    (hreg : names_ok reg) (hline : cstr cmd = some line)
    (htok : (header_token line).length < SHELL_CMD_MAX_SIZE)
    (hobj : SP ∈ line ∨ SHELL_CMD_MAX_SIZE < cmd.length)
    (hj : j < reg.shell_func_list_size)
    (hname : (reg.shell_func_list j).cmd = header_token line)
    (hfirst : ∀ k, k < j → (reg.shell_func_list k).cmd ≠ header_token line) :
    ∃ argc argv n, (shell_exec reg cmd).calls = [{ idx := j, argc := argc, argv := argv }] ∧
      (shell_exec reg cmd).ret = some n ∧
      (n : Int) = ((reg.shell_func_list j).func (listing reg) argc argv).1 % 256 ∧
      ((n : Int) = ((reg.shell_func_list j).func (listing reg) argc argv).1 ↔
        0 ≤ ((reg.shell_func_list j).func (listing reg) argc argv).1 ∧
          ((reg.shell_func_list j).func (listing reg) argc argv).1 < 256) := by
  obtain ⟨cmd1, e⟩ := exec_hit reg cmd line j hreg hline htok hobj hj hname hfirst
  refine ⟨_, _, _, by rw [e], by rw [e], ?_, ?_⟩
  · exact Int.toNat_of_nonneg (Int.emod_nonneg _ (by decide))
  · rw [Int.toNat_of_nonneg (Int.emod_nonneg _ (by decide))]
    constructor
    · intro h
      have h1 := Int.emod_nonneg ((reg.shell_func_list j).func (listing reg)
        (split_args line (SHELL_ARGC_MAX - 1)).length
        (split_args line (SHELL_ARGC_MAX - 1))).1 (show (256 : Int) ≠ 0 by decide)
      have h2 := Int.emod_lt_of_pos ((reg.shell_func_list j).func (listing reg)
        (split_args line (SHELL_ARGC_MAX - 1)).length
        (split_args line (SHELL_ARGC_MAX - 1))).1 (show (0 : Int) < 256 by decide)
      rw [h] at h1 h2
      exact ⟨h1, h2⟩
    · rintro ⟨h1, h2⟩
      exact Int.emod_eq_of_lt h1 h2

theorem C7_result_mod_256_witness :
    names_ok table_256 ∧ cstr (line_mem "x".toList) = some "x".toList ∧
      (header_token "x".toList).length < SHELL_CMD_MAX_SIZE ∧
      (SP ∈ "x".toList ∨ SHELL_CMD_MAX_SIZE < (line_mem "x".toList).length) ∧
      2 < table_256.shell_func_list_size ∧
      (table_256.shell_func_list 2).cmd = header_token "x".toList ∧
      (∀ k, k < 2 → (table_256.shell_func_list k).cmd ≠ header_token "x".toList) ∧
      ∃ argc argv n, (shell_exec table_256 (line_mem "x".toList)).calls =
          [{ idx := 2, argc := argc, argv := argv }] ∧
        (shell_exec table_256 (line_mem "x".toList)).ret = some n ∧
        (n : Int) = ((table_256.shell_func_list 2).func (listing table_256) argc argv).1 % 256 ∧
        ((n : Int) = ((table_256.shell_func_list 2).func (listing table_256) argc argv).1 ↔
          0 ≤ ((table_256.shell_func_list 2).func (listing table_256) argc argv).1 ∧
            ((table_256.shell_func_list 2).func (listing table_256) argc argv).1 < 256) :=
  ⟨names_ok_table_256, by decide, by decide, Or.inr (by decide), by decide, by decide,
    by decide,
    C7_result_mod_256 table_256 (line_mem "x".toList) "x".toList 2 names_ok_table_256
      (by decide) (by decide) (Or.inr (by decide)) (by decide) (by decide) (by decide)⟩

/-! ## Claims on the cursor, the stores and the echo -/

theorem step_pos_le (st : State) (c : Char) (h : st.pos ≤ SHELL_BUFFER_SIZE) :
    (shell_char_received st c).st.pos ≤ SHELL_BUFFER_SIZE := by
  by_cases h1 : c = CR
  · subst h1; rw [step_cr]; exact Nat.zero_le _
  · by_cases h2 : c = BS
    · subst h2; rw [step_bs]
      by_cases hp : st.pos > 0
      · simp only [hp, if_true]; omega
      · simp only [hp, if_false]; exact h
    · rw [step_other st c h1 h2]
      by_cases hp : st.pos < SHELL_BUFFER_SIZE
      · simp only [hp, if_true]; omega
      · simp only [hp, if_false]; exact h

theorem feed_pos_le (cs : List Char) (st : State) (h : st.pos ≤ SHELL_BUFFER_SIZE) :
    (feed st cs).pos ≤ SHELL_BUFFER_SIZE := by
  induction cs generalizing st with
  | nil => exact h
  | cons c cs ih => exact ih _ (step_pos_le st c h)

theorem feed_snoc (st : State) (cs : List Char) (c : Char) :
    feed st (cs ++ [c]) = (shell_char_received (feed st cs) c).st := by
  rw [feed_append]; rfl

/-- C14: in every state reached from a state with the cursor at 0 by any
sequence of characters, the cursor is at most SHELL_BUFFER_SIZE, and it is 0
right after each carriage return of the sequence has been processed. -/
theorem C14_cursor_range (st : State) (cs : List Char) (hpos : st.pos = 0) :
    (∀ k, k ≤ cs.length → (feed st (cs.take k)).pos ≤ SHELL_BUFFER_SIZE) ∧
      ∀ k, cs[k]? = some CR → (feed st (cs.take (k + 1))).pos = 0 := by
  constructor
  · intro k _
    exact feed_pos_le _ st (by omega)
  · intro k hk
    rw [List.take_succ, hk, Option.toList_some, feed_snoc, step_cr]

theorem C14_cursor_range_witness :
    ready.pos = 0 ∧
      (∀ k, k ≤ [Char.ofNat 104, CR, BS].length →
        (feed ready ([Char.ofNat 104, CR, BS].take k)).pos ≤ SHELL_BUFFER_SIZE) ∧
      ∀ k, [Char.ofNat 104, CR, BS][k]? = some CR →
        (feed ready ([Char.ofNat 104, CR, BS].take (k + 1))).pos = 0 :=
  ⟨rfl, C14_cursor_range ready [Char.ofNat 104, CR, BS] rfl⟩

/-- C17 (the code at the boundary): a store of a typed character is always at
an index below SHELL_BUFFER_SIZE, but after SHELL_BUFFER_SIZE characters
typed from the cursor at 0 the terminator store of the carriage return is at
index SHELL_BUFFER_SIZE, which is not inside buf. -/
theorem C17_terminator_store_index (st : State) (s : List Char)
    (hpos : st.pos = 0) (hs : ∀ c ∈ s, c ≠ CR ∧ c ≠ BS)
    (hlen : s.length = SHELL_BUFFER_SIZE) :
    (∀ (st1 : State) (c : Char) (i : Nat), c ≠ CR → store_index st1 c = some i →
        i < SHELL_BUFFER_SIZE) ∧
      ∃ i, store_index (feed st s) CR = some i ∧ ¬ i < SHELL_BUFFER_SIZE := by
  refine ⟨?_, SHELL_BUFFER_SIZE, ?_, Nat.lt_irrefl _⟩
  · intro st1 c i hc hi
    simp only [store_index, hc, if_false] at hi
    by_cases hb : c = BS
    · simp [hb] at hi
    · by_cases hp : st1.pos < SHELL_BUFFER_SIZE
      · simp only [hb, hp, if_false, if_true, Option.some.injEq] at hi
        omega
      · simp [hb, hp] at hi
  · have := feed_plain_pos s st hs (by omega)
    simp only [store_index, if_true, this, hpos, hlen, Nat.zero_add]

theorem C17_terminator_store_index_witness :
    ready.pos = 0 ∧ (∀ c ∈ List.replicate 40 (Char.ofNat 97), c ≠ CR ∧ c ≠ BS) ∧
      (List.replicate 40 (Char.ofNat 97)).length = SHELL_BUFFER_SIZE ∧
      ∃ i, store_index (feed ready (List.replicate 40 (Char.ofNat 97))) CR = some i ∧
        ¬ i < SHELL_BUFFER_SIZE :=
  ⟨rfl, by decide, by decide,
    (C17_terminator_store_index ready (List.replicate 40 (Char.ofNat 97)) rfl
      (by decide) (by decide)).2⟩

/-- C19: for a character other than the carriage return, shell_char_received
transmits that one character when it is not a backspace and the cursor is
below SHELL_BUFFER_SIZE, the three bytes backspace, space, backspace when it
is a backspace and the cursor is above 0, and nothing otherwise; it
transmits something exactly when the cursor changes. -/
theorem C19_echo (st : State) (c : Char) (hc : c ≠ CR) :
    (c ≠ BS → st.pos < SHELL_BUFFER_SIZE → (shell_char_received st c).out = [c]) ∧
      (c = BS → 0 < st.pos → (shell_char_received st c).out = [BS, SP, BS]) ∧
      (¬ (c ≠ BS ∧ st.pos < SHELL_BUFFER_SIZE) → ¬ (c = BS ∧ 0 < st.pos) →
        (shell_char_received st c).out = []) ∧
      ((shell_char_received st c).out ≠ [] ↔ (shell_char_received st c).st.pos ≠ st.pos) := by
  by_cases hb : c = BS
  · subst hb
    rw [step_bs]
    by_cases hp : st.pos > 0
    · rw [if_pos hp]
      refine ⟨fun h => absurd rfl h, fun _ _ => by simp [uart_write, backspace], ?_, ?_⟩
      · intro _ h2; exact absurd ⟨rfl, hp⟩ h2
      · constructor
        · intro _; show st.pos - 1 ≠ st.pos; omega
        · intro _; simp [uart_write, backspace]
    · rw [if_neg hp]
      refine ⟨fun h => absurd rfl h, fun _ h => absurd h hp, fun _ _ => rfl, ?_⟩
      simp
  · rw [step_other st c hc hb]
    by_cases hp : st.pos < SHELL_BUFFER_SIZE
    · rw [if_pos hp]
      refine ⟨fun _ _ => by simp [uart_write], fun h => absurd h hb, ?_, ?_⟩
      · intro h1 _; exact absurd ⟨hb, hp⟩ h1
      · constructor
        · intro _; show st.pos + 1 ≠ st.pos; omega
        · intro _; simp [uart_write]
    · rw [if_neg hp]
      refine ⟨fun _ h => absurd h hp, fun h => absurd h hb, fun _ _ => rfl, ?_⟩
      simp

theorem C19_echo_witness :
    Char.ofNat 104 ≠ CR ∧
      (Char.ofNat 104 ≠ BS → ready.pos < SHELL_BUFFER_SIZE →
        (shell_char_received ready (Char.ofNat 104)).out = [Char.ofNat 104]) :=
  ⟨by decide, (C19_echo ready (Char.ofNat 104) (by decide)).1⟩

/-- C20 (the code on every carriage return whose dispatch returns): the bytes
transmitted are "\r\n", then what the dispatch prints, then the ten
characters of the prompt and after them one more byte, the terminator of
the array prompt, because line 156 passes sizeof(prompt) as the length. -/
theorem C20_prompt_with_terminator (st : State)
    (hret : (shell_exec st.reg (st.buf.set st.pos NUL)).ret.isSome = true) :
    (shell_char_received st CR).out =
        [CR, LF] ++ (shell_exec st.reg (st.buf.set st.pos NUL)).out ++
          "@STM32 >> ".toList ++ [NUL] ∧
      (shell_char_received st CR).out ≠
        [CR, LF] ++ (shell_exec st.reg (st.buf.set st.pos NUL)).out ++ "@STM32 >> ".toList := by
  have h : (shell_char_received st CR).out =
      [CR, LF] ++ (shell_exec st.reg (st.buf.set st.pos NUL)).out ++
        "@STM32 >> ".toList ++ [NUL] := by
    rw [step_cr]
    simp only [hret, if_true]
    have hp : uart_write prompt prompt.length = "@STM32 >> ".toList ++ [NUL] := by decide
    rw [hp]
    simp only [List.append_assoc]
  refine ⟨h, ?_⟩
  rw [h]
  intro hcon
  have := congrArg List.length hcon
  simp at this

theorem C20_prompt_with_terminator_witness :
    (shell_exec ready.reg (ready.buf.set ready.pos NUL)).ret.isSome = true ∧
      (shell_char_received ready CR).out =
        [CR, LF] ++ (shell_exec ready.reg (ready.buf.set ready.pos NUL)).out ++
          "@STM32 >> ".toList ++ [NUL] :=
  ⟨by decide, (C20_prompt_with_terminator ready (by decide)).1⟩

/-! ## Claims on the arguments -/

theorem split_args_ne_nil (line : List Char) (b : Nat) : split_args line b ≠ [] := by
  cases line with
  | nil => simp [split_args]
  | cons ch rest =>
    cases b with
    | zero => simp [split_args]
    | succ b =>
      by_cases h : ch = SP
      · simp [split_args, h]
      · simp only [split_args, h, if_false]
        cases split_args rest (b + 1) <;> simp

theorem split_args_length (line : List Char) (b : Nat) :
    (split_args line b).length = min (1 + line.count SP) (b + 1) := by
  induction line generalizing b with
  | nil => simp [split_args]
  | cons ch rest ih =>
    cases b with
    | zero => simp [split_args]
    | succ b =>
      by_cases h : ch = SP
      · subst h
        simp only [split_args, if_true, List.length_cons, ih b, List.count_cons_self]
        omega
      · have hc : (ch :: rest).count SP = rest.count SP := by
          rw [List.count_cons_of_ne (fun h1 => h h1.symm)]
        simp only [split_args, h, if_false, hc]
        have := ih (b + 1)
        cases hs : split_args rest (b + 1) with
        | nil => exact absurd hs (split_args_ne_nil rest (b + 1))
        | cons p ps =>
          rw [hs] at this
          simpa using this

theorem after_space_zero (line : List Char) : after_space line 0 = 0 := by
  cases line <;> rfl

theorem split_args_get (line : List Char) (b i : Nat)
    (hi : i < (split_args line b).length) :
    (split_args line b)[i]? =
      some (if i < b then header_token (line.drop (after_space line i))
        else line.drop (after_space line i)) := by
  induction line generalizing b i with
  | nil =>
    simp only [split_args, List.length_singleton] at hi
    have : i = 0 := by omega
    subst this
    simp [split_args, header_token]
  | cons ch rest ih =>
    cases b with
    | zero =>
      simp only [split_args, List.length_singleton] at hi
      have : i = 0 := by omega
      subst this
      simp [split_args, after_space_zero]
    | succ b =>
      by_cases h : ch = SP
      · subst h
        cases i with
        | zero => simp [split_args, after_space_zero, header_token]
        | succ i =>
          simp only [split_args, if_true, List.length_cons] at hi
          have := ih b i (by omega)
          simp only [split_args, if_true, List.getElem?_cons_succ, this, after_space]
          have hd : List.drop (1 + after_space rest i) (SP :: rest) =
              List.drop (after_space rest i) rest := by
            rw [Nat.add_comm]; rfl
          rw [hd]
          simp only [Nat.add_lt_add_iff_right]
      · cases hs : split_args rest (b + 1) with
        | nil => exact absurd hs (split_args_ne_nil rest (b + 1))
        | cons p ps =>
          have hlen : (split_args (ch :: rest) (b + 1)).length =
              (split_args rest (b + 1)).length := by
            simp only [split_args, h, if_false, hs, List.length_cons]
          rw [hlen] at hi
          cases i with
          | zero =>
            have := ih (b + 1) 0 (by rw [hs]; simp)
            rw [hs] at this
            simp only [List.getElem?_cons_zero, Nat.zero_lt_succ, if_true, after_space_zero,
              List.drop_zero, Option.some.injEq] at this
            simp only [split_args, h, if_false, hs, List.getElem?_cons_zero, Nat.zero_lt_succ,
              if_true, after_space_zero, List.drop_zero, Option.some.injEq, this]
            simp [header_token, h]
          | succ i =>
            have := ih (b + 1) (i + 1) hi
            rw [hs] at this
            simp only [List.getElem?_cons_succ] at this
            simp only [split_args, h, if_false, hs, List.getElem?_cons_succ, this, after_space]
            have hd : List.drop (1 + after_space rest (i + 1)) (ch :: rest) =
                List.drop (after_space rest (i + 1)) rest := by
              rw [Nat.add_comm]; rfl
            rw [hd]

theorem after_space_spec (line : List Char) (i : Nat) (h1 : 1 ≤ i)
    (h2 : i ≤ line.count SP) :
    (line.take (after_space line i)).count SP = i ∧
      (line.take (after_space line i)).getLast? = some SP := by
  induction line generalizing i with
  | nil => simp at h2; omega
  | cons ch rest ih =>
    obtain ⟨k, rfl⟩ : ∃ k, i = k + 1 := ⟨i - 1, by omega⟩
    by_cases h : ch = SP
    · subst h
      simp only [List.count_cons_self] at h2
      have ht : List.take (after_space (SP :: rest) (k + 1)) (SP :: rest) =
          SP :: List.take (after_space rest k) rest := by
        simp only [after_space, if_true]
        rw [Nat.add_comm]; rfl
      rw [ht]
      cases k with
      | zero => simp [after_space_zero]
      | succ k =>
        obtain ⟨e1, e2⟩ := ih (k + 1) (by omega) (by omega)
        refine ⟨by simp only [List.count_cons_self, e1], ?_⟩
        cases hl : List.take (after_space rest (k + 1)) rest with
        | nil => rw [hl] at e2; simp at e2
        | cons y ys => rw [hl] at e2; simpa [List.getLast?_cons_cons] using e2
    · have hc : (ch :: rest).count SP = rest.count SP := by
        rw [List.count_cons_of_ne (fun h1 => h h1.symm)]
      rw [hc] at h2
      have ht : List.take (after_space (ch :: rest) (k + 1)) (ch :: rest) =
          ch :: List.take (after_space rest (k + 1)) rest := by
        simp only [after_space, h, if_false]
        rw [Nat.add_comm]; rfl
      rw [ht]
      obtain ⟨e1, e2⟩ := ih (k + 1) (by omega) h2
      refine ⟨by rw [List.count_cons_of_ne (fun h1 => h h1.symm), e1], ?_⟩
      cases hl : List.take (after_space rest (k + 1)) rest with
      | nil => rw [hl] at e2; simp at e2
      | cons y ys => rw [hl] at e2; simpa [List.getLast?_cons_cons] using e2

theorem join_args_split (line : List Char) (b : Nat) :
    join_args (split_args line b) = line := by
  induction line generalizing b with
  | nil => simp [split_args, join_args]
  | cons ch rest ih =>
    cases b with
    | zero => simp [split_args, join_args]
    | succ b =>
      by_cases h : ch = SP
      · subst h
        have := ih b
        cases hs : split_args rest b with
        | nil => exact absurd hs (split_args_ne_nil rest b)
        | cons p ps =>
          rw [hs] at this
          simp [split_args, hs, join_args, this]
      · have := ih (b + 1)
        cases hs : split_args rest (b + 1) with
        | nil => exact absurd hs (split_args_ne_nil rest (b + 1))
        | cons p ps =>
          rw [hs] at this
          simp only [split_args, h, if_false, hs]
          cases ps with
          | nil =>
            simp only [join_args] at this ⊢
            rw [this]
          | cons q qs =>
            simp only [join_args, List.cons_append] at this ⊢
            rw [this]

/-- C12: for a line whose header token is registered, the command function
is invoked with argc = min(1 + k, SHELL_ARGC_MAX), k the number of spaces of
the line; for 1 ≤ i < argc, argument i starts right after the i-th space
(the characters of the line up to that position hold exactly i spaces and
end with one) and runs to the next space, except that the argument of index
SHELL_ARGC_MAX - 1 is the whole rest of the line, spaces included. -/
theorem C12_argument_positions (reg : Registry) (cmd line : List Char) (j : Nat)
    (hreg : names_ok reg) (hline : cstr cmd = some line)
    (htok : (header_token line).length < SHELL_CMD_MAX_SIZE)
    (hobj : SP ∈ line ∨ SHELL_CMD_MAX_SIZE < cmd.length)
    (hj : j < reg.shell_func_list_size)
    (hname : (reg.shell_func_list j).cmd = header_token line)
    (hfirst : ∀ k, k < j → (reg.shell_func_list k).cmd ≠ header_token line) :
    ∃ argc argv, (shell_exec reg cmd).calls = [{ idx := j, argc := argc, argv := argv }] ∧
      argc = min (1 + line.count SP) SHELL_ARGC_MAX ∧ argc ≤ SHELL_ARGC_MAX ∧
      argv.length = argc ∧
      (∀ i, 1 ≤ i → i < argc →
        (line.take (after_space line i)).count SP = i ∧
        (line.take (after_space line i)).getLast? = some SP ∧
        argv[i]? = some (if i < SHELL_ARGC_MAX - 1
          then header_token (line.drop (after_space line i))
          else line.drop (after_space line i))) ∧
      (SHELL_ARGC_MAX - 1 < line.count SP →
        argv[SHELL_ARGC_MAX - 1]? =
          some (line.drop (after_space line (SHELL_ARGC_MAX - 1)))) := by
  obtain ⟨cmd1, e⟩ := exec_hit reg cmd line j hreg hline htok hobj hj hname hfirst
  have hlen := split_args_length line (SHELL_ARGC_MAX - 1)
  have h8 : SHELL_ARGC_MAX - 1 + 1 = SHELL_ARGC_MAX := by decide
  rw [h8] at hlen
  refine ⟨_, _, by rw [e], hlen, by rw [hlen]; exact Nat.min_le_right _ _, rfl, ?_, ?_⟩
  · intro i h1 h2
    have hk : i ≤ line.count SP := by
      rw [hlen] at h2
      have := Nat.min_le_left (1 + line.count SP) SHELL_ARGC_MAX
      omega
    obtain ⟨a1, a2⟩ := after_space_spec line i h1 hk
    exact ⟨a1, a2, split_args_get line _ i h2⟩
  · intro hk
    have h7 : SHELL_ARGC_MAX - 1 < (split_args line (SHELL_ARGC_MAX - 1)).length := by
      rw [hlen]
      have : SHELL_ARGC_MAX = 8 := rfl
      omega
    rw [split_args_get line _ _ h7]
    simp

theorem C12_argument_positions_witness :
    names_ok ready.reg ∧ cstr (line_mem "f a b".toList) = some "f a b".toList ∧
      (header_token "f a b".toList).length < SHELL_CMD_MAX_SIZE ∧
      (SP ∈ "f a b".toList ∨ SHELL_CMD_MAX_SIZE < (line_mem "f a b".toList).length) ∧
      1 < ready.reg.shell_func_list_size ∧
      (ready.reg.shell_func_list 1).cmd = header_token "f a b".toList ∧
      (∀ k, k < 1 → (ready.reg.shell_func_list k).cmd ≠ header_token "f a b".toList) ∧
      ∃ argc argv, (shell_exec ready.reg (line_mem "f a b".toList)).calls =
          [{ idx := 1, argc := argc, argv := argv }] ∧
        argc = min (1 + "f a b".toList.count SP) SHELL_ARGC_MAX ∧ argc ≤ SHELL_ARGC_MAX ∧
        argv.length = argc ∧
        (∀ i, 1 ≤ i → i < argc →
          ("f a b".toList.take (after_space "f a b".toList i)).count SP = i ∧
          ("f a b".toList.take (after_space "f a b".toList i)).getLast? = some SP ∧
          argv[i]? = some (if i < SHELL_ARGC_MAX - 1
            then header_token ("f a b".toList.drop (after_space "f a b".toList i))
            else "f a b".toList.drop (after_space "f a b".toList i))) ∧
        (SHELL_ARGC_MAX - 1 < "f a b".toList.count SP →
          argv[SHELL_ARGC_MAX - 1]? =
            some ("f a b".toList.drop (after_space "f a b".toList (SHELL_ARGC_MAX - 1)))) :=
  ⟨names_ok_ready, by decide, by decide, Or.inl (by decide), by decide, by decide, by decide,
    C12_argument_positions ready.reg (line_mem "f a b".toList) "f a b".toList 1
      names_ok_ready (by decide) (by decide) (Or.inl (by decide)) (by decide) (by decide)
      (by decide)⟩

/-- C18: for a line whose header token is registered, the argc strings that
the command function receives, joined in order with a single space between
consecutive ones, give back exactly the line. -/
theorem C18_join_gives_line (reg : Registry) (cmd line : List Char) (j : Nat)
    (hreg : names_ok reg) (hline : cstr cmd = some line)
    (htok : (header_token line).length < SHELL_CMD_MAX_SIZE)
    (hobj : SP ∈ line ∨ SHELL_CMD_MAX_SIZE < cmd.length)
    (hj : j < reg.shell_func_list_size)
    (hname : (reg.shell_func_list j).cmd = header_token line)
    (hfirst : ∀ k, k < j → (reg.shell_func_list k).cmd ≠ header_token line) :
    ∃ argc argv, (shell_exec reg cmd).calls = [{ idx := j, argc := argc, argv := argv }] ∧
      argv.length = argc ∧ join_args argv = line := by
  obtain ⟨cmd1, e⟩ := exec_hit reg cmd line j hreg hline htok hobj hj hname hfirst
  exact ⟨_, _, by rw [e], rfl, join_args_split line _⟩

theorem C18_join_gives_line_witness :
    names_ok ready.reg ∧ cstr (line_mem "f a  b".toList) = some "f a  b".toList ∧
      (header_token "f a  b".toList).length < SHELL_CMD_MAX_SIZE ∧
      (SP ∈ "f a  b".toList ∨ SHELL_CMD_MAX_SIZE < (line_mem "f a  b".toList).length) ∧
      1 < ready.reg.shell_func_list_size ∧
      (ready.reg.shell_func_list 1).cmd = header_token "f a  b".toList ∧
      (∀ k, k < 1 → (ready.reg.shell_func_list k).cmd ≠ header_token "f a  b".toList) ∧
      ∃ argc argv, (shell_exec ready.reg (line_mem "f a  b".toList)).calls =
          [{ idx := 1, argc := argc, argv := argv }] ∧
        argv.length = argc ∧ join_args argv = "f a  b".toList :=
  ⟨names_ok_ready, by decide, by decide, Or.inl (by decide), by decide, by decide, by decide,
    C18_join_gives_line ready.reg (line_mem "f a  b".toList) "f a  b".toList 1
      names_ok_ready (by decide) (by decide) (Or.inl (by decide)) (by decide) (by decide)
      (by decide)⟩

/-! ## The help command -/

/-- C11: when the line "help" is dispatched to sh_help, the output is, for
each of the n registered entries in index order, its name, " : ", its
description and "\r\n", and the result is 0; with the table of shell_init
the output is "help : help\r\nf : Example command\r\n". -/
theorem C11_help_lists_the_table (reg : Registry) (cmd : List Char) (j : Nat)
    (hreg : names_ok reg) (hline : cstr cmd = some "help".toList)
    (hobj : SHELL_CMD_MAX_SIZE < cmd.length)
    (hj : j < reg.shell_func_list_size)
    (hname : (reg.shell_func_list j).cmd = "help".toList)
    (hfirst : ∀ k, k < j → (reg.shell_func_list k).cmd ≠ "help".toList)
    (hfunc : (reg.shell_func_list j).func = sh_help) :
    (shell_exec reg cmd).out =
        ((List.range reg.shell_func_list_size).map (fun i =>
          (reg.shell_func_list i).cmd ++ " : ".toList ++
            (reg.shell_func_list i).description ++ [CR, LF])).flatten ∧
      ((List.range reg.shell_func_list_size).map (fun i =>
          (reg.shell_func_list i).cmd ++ " : ".toList ++
            (reg.shell_func_list i).description ++ [CR, LF])).length =
        reg.shell_func_list_size ∧
      (shell_exec reg cmd).ret = some 0 ∧
      (shell_exec ready.reg (line_mem "help".toList)).out =
        "help : help\r\nf : Example command\r\n".toList := by
  have htk : header_token "help".toList = "help".toList := by decide
  obtain ⟨cmd1, e⟩ := exec_hit reg cmd "help".toList j hreg hline (by decide)
    (Or.inr hobj) hj (by rw [htk]; exact hname) (by rw [htk]; exact hfirst)
  rw [e, hfunc]
  refine ⟨?_, by simp, rfl, by decide⟩
  simp only [sh_help, listing, List.map_map]
  rfl

theorem C11_help_lists_the_table_witness :
    names_ok ready.reg ∧ cstr (line_mem "help".toList) = some "help".toList ∧
      SHELL_CMD_MAX_SIZE < (line_mem "help".toList).length ∧
      0 < ready.reg.shell_func_list_size ∧
      (ready.reg.shell_func_list 0).cmd = "help".toList ∧
      (∀ k, k < 0 → (ready.reg.shell_func_list k).cmd ≠ "help".toList) ∧
      (ready.reg.shell_func_list 0).func = sh_help ∧
      (shell_exec ready.reg (line_mem "help".toList)).ret = some 0 ∧
      (shell_exec ready.reg (line_mem "help".toList)).out =
        "help : help\r\nf : Example command\r\n".toList :=
  ⟨names_ok_ready, by decide, by decide, by decide, by decide, by decide, rfl,
    (C11_help_lists_the_table ready.reg (line_mem "help".toList) 0 names_ok_ready
      (by decide) (by decide) (by decide) (by decide) (by decide) rfl).2.2.1,
    (C11_help_lists_the_table ready.reg (line_mem "help".toList) 0 names_ok_ready
      (by decide) (by decide) (by decide) (by decide) (by decide) rfl).2.2.2⟩

/-! ## Claims on the header array -/

theorem header_full (cmd : List Char) (hsp : ∀ c ∈ cmd.take SHELL_CMD_MAX_SIZE, c ≠ SP)
    (hobj : SHELL_CMD_MAX_SIZE < cmd.length) :
    header_loop cmd (List.replicate SHELL_CMD_MAX_SIZE NUL) 0 =
      some (cmd.take SHELL_CMD_MAX_SIZE, SHELL_CMD_MAX_SIZE) := by
  have hlen : (cmd.take SHELL_CMD_MAX_SIZE).length = SHELL_CMD_MAX_SIZE := by
    simp only [List.length_take]; omega
  have hw := header_walk (cmd.take SHELL_CMD_MAX_SIZE) (cmd.drop SHELL_CMD_MAX_SIZE) []
    (List.replicate SHELL_CMD_MAX_SIZE NUL) hsp (by rw [hlen]; simp) (by rw [hlen]; simp)
  simp only [List.nil_append, List.length_nil, Nat.zero_add, List.take_append_drop, hlen,
    List.drop_replicate, Nat.sub_self, List.replicate_zero, List.append_nil] at hw
  rw [hw]
  cases hd : cmd.drop SHELL_CMD_MAX_SIZE with
  | nil =>
    have := congrArg List.length hd
    simp only [List.length_drop, List.length_nil] at this
    omega
  | cons x r =>
    have hstop : ¬ (x ≠ SP ∧ SHELL_CMD_MAX_SIZE < SHELL_CMD_MAX_SIZE) := fun h =>
      Nat.lt_irrefl _ h.2
    rw [header_loop, if_neg hstop]

theorem header_scan_full (cmd : List Char)
    (hsp : ∀ c ∈ cmd.take SHELL_CMD_MAX_SIZE, c ≠ SP)
    (hobj : SHELL_CMD_MAX_SIZE < cmd.length) :
    header_scan cmd = some (cmd.take SHELL_CMD_MAX_SIZE, SHELL_CMD_MAX_SIZE) := by
  rw [header_scan, header_full cmd hsp hobj]
  simp only [Option.map_some', Option.some.injEq, Prod.mk.injEq, and_true]
  exact List.set_eq_of_length_le (by simp only [List.length_take]; omega)

theorem shell_exec_scan (reg : Registry) (cmd : List Char) :
    shell_exec reg cmd =
      match header_scan cmd with
      | none => undefined_run cmd
      | some (header, _) => search reg cmd header reg.shell_func_list_size 0 := by
  rw [shell_exec, header_scan]
  cases header_loop cmd (List.replicate SHELL_CMD_MAX_SIZE NUL) 0 with
  | none => rfl
  | some r => rfl

theorem strcmp_unterminated (name hdr : List Char) (h : NUL ∉ hdr) :
    strcmp name hdr ≠ some true := by
  induction name generalizing hdr with
  | nil =>
    cases hdr with
    | nil => simp [strcmp]
    | cons y ys =>
      have hy : y ≠ NUL := fun h1 => h (by simp [h1])
      simp [strcmp, hy]
  | cons x xs ih =>
    cases hdr with
    | nil => simp [strcmp]
    | cons y ys =>
      have hys : NUL ∉ ys := fun h1 => h (by simp [h1])
      by_cases hxy : x = y
      · simp only [strcmp, hxy, if_true]
        exact ih ys hys
      · simp [strcmp, hxy]

theorem search_no_call (reg : Registry) (cmd hdr : List Char) (h : NUL ∉ hdr) (n i : Nat) :
    (search reg cmd hdr n i).calls = [] := by
  induction n generalizing i with
  | zero =>
    rw [search, not_found]
    cases cstr cmd <;> rfl
  | succ n ih =>
    rw [search]
    have := strcmp_unterminated (reg.shell_func_list i).cmd hdr h
    cases hs : strcmp (reg.shell_func_list i).cmd hdr with
    | none => rfl
    | some b =>
      cases b with
      | true => exact absurd hs this
      | false => exact ih (i + 1)

theorem long_token_take (cmd line : List Char) (hline : cstr cmd = some line)
    (hlong : SHELL_CMD_MAX_SIZE ≤ (header_token line).length) :
    cmd.take SHELL_CMD_MAX_SIZE = (header_token line).take SHELL_CMD_MAX_SIZE := by
  obtain ⟨_, stale, rfl⟩ := cstr_some cmd line hline
  rcases token_split line with h | ⟨more, h⟩
  · conv => lhs; rw [h]
    rw [List.take_append_of_le_length hlong]
  · conv => lhs; rw [h]
    rw [List.append_assoc, List.take_append_of_le_length hlong]

theorem long_header_scan (cmd line : List Char) (hline : cstr cmd = some line)
    (hobj : SHELL_CMD_MAX_SIZE < cmd.length)
    (hlong : SHELL_CMD_MAX_SIZE ≤ (header_token line).length) :
    header_scan cmd =
        some ((header_token line).take SHELL_CMD_MAX_SIZE, SHELL_CMD_MAX_SIZE) ∧
      NUL ∉ (header_token line).take SHELL_CMD_MAX_SIZE := by
  have ht := long_token_take cmd line hline hlong
  have hsp : ∀ c ∈ cmd.take SHELL_CMD_MAX_SIZE, c ≠ SP := by
    intro c hc
    rw [ht] at hc
    exact token_no_space line c (List.mem_of_mem_take hc)
  refine ⟨by rw [header_scan_full cmd hsp hobj, ht], ?_⟩
  intro hn
  exact token_no_nul cmd line hline (List.mem_of_mem_take hn)

/-- C16 (the code on a short line): for a line shorter than
SHELL_CMD_MAX_SIZE, held in an object of more than SHELL_CMD_MAX_SIZE bytes
whose first SHELL_CMD_MAX_SIZE bytes hold no space (the line "help" in the
buffer after start-up), the loop of line 191 is left with h =
SHELL_CMD_MAX_SIZE: it has read cmd[h], beyond the terminator of the line,
and the store header[h] of line 195 is at an index that is not below
SHELL_CMD_MAX_SIZE. -/
theorem C16_header_store_index (cmd line : List Char) (hline : cstr cmd = some line)
    (hshort : line.length < SHELL_CMD_MAX_SIZE)
    (hsp : ∀ c ∈ cmd.take SHELL_CMD_MAX_SIZE, c ≠ SP)
    (hobj : SHELL_CMD_MAX_SIZE < cmd.length) :
    ∃ hd h, header_scan cmd = some (hd, h) ∧
      cmd[line.length]? = some NUL ∧ line.length < h ∧
      ¬ h < SHELL_CMD_MAX_SIZE ∧ ¬ h < (List.replicate SHELL_CMD_MAX_SIZE NUL).length := by
  refine ⟨_, _, header_scan_full cmd hsp hobj, ?_, hshort, Nat.lt_irrefl _, by simp⟩
  obtain ⟨_, stale, rfl⟩ := cstr_some cmd line hline
  rw [List.getElem?_append_right (le_refl _)]
  simp

theorem C16_header_store_index_witness :
    cstr (line_mem "help".toList) = some "help".toList ∧
      "help".toList.length < SHELL_CMD_MAX_SIZE ∧
      (∀ c ∈ (line_mem "help".toList).take SHELL_CMD_MAX_SIZE, c ≠ SP) ∧
      SHELL_CMD_MAX_SIZE < (line_mem "help".toList).length ∧
      ∃ hd h, header_scan (line_mem "help".toList) = some (hd, h) ∧
        (line_mem "help".toList)["help".toList.length]? = some NUL ∧
        "help".toList.length < h ∧ ¬ h < SHELL_CMD_MAX_SIZE ∧
        ¬ h < (List.replicate SHELL_CMD_MAX_SIZE NUL).length :=
  ⟨by decide, by decide, by decide, by decide,
    C16_header_store_index (line_mem "help".toList) "help".toList (by decide) (by decide)
      (by decide) (by decide)⟩

theorem names_ok_table_long : names_ok table_long := by
  intro i hi
  have h2 : i < 3 := hi
  interval_cases i <;> decide

/-- C15 (the code on a long header): in every run of shell_exec that
returns, the name of each entry whose function is invoked equals the header
token of the line; but with a registered name of SHELL_CMD_MAX_SIZE
characters and a line that starts with them and goes on, the comparison of
line 199 reads header[SHELL_CMD_MAX_SIZE], outside the array, and the run
has no defined result. -/
theorem C15_invoked_name_is_token (reg : Registry) (cmd line : List Char)
    (hreg : names_ok reg) (hline : cstr cmd = some line)
    (hobj : SHELL_CMD_MAX_SIZE < cmd.length) :
    ((shell_exec reg cmd).ret.isSome = true →
      ∀ c ∈ (shell_exec reg cmd).calls,
        c.idx < reg.shell_func_list_size ∧
          (reg.shell_func_list c.idx).cmd = header_token line) ∧
    (table_long.shell_func_list 2).cmd = "abcdefghijklmnop".toList ∧
    header_token "abcdefghijklmnopq".toList ≠ "abcdefghijklmnop".toList ∧
    shell_exec table_long (line_mem "abcdefghijklmnopq".toList) =
      undefined_run (line_mem "abcdefghijklmnopq".toList) := by
  refine ⟨?_, by decide, by decide, by decide⟩
  intro _ c hc
  by_cases htok : (header_token line).length < SHELL_CMD_MAX_SIZE
  · by_cases hex : ∃ k, k < reg.shell_func_list_size ∧
        (reg.shell_func_list k).cmd = header_token line
    · obtain ⟨j, hj, hname, hfirst⟩ :=
        earliest_entry (fun k => (reg.shell_func_list k).cmd = header_token line) _ hex
      obtain ⟨cmd1, e⟩ := exec_hit reg cmd line j hreg hline htok (Or.inr hobj) hj hname hfirst
      rw [e] at hc
      simp only [List.mem_singleton] at hc
      subst hc
      exact ⟨hj, hname⟩
    · rw [exec_miss reg cmd line hreg hline htok (Or.inr hobj)
        (fun k hk hn => hex ⟨k, hk, hn⟩)] at hc
      simp at hc
  · have hlong : SHELL_CMD_MAX_SIZE ≤ (header_token line).length := by omega
    have hs := (long_header_scan cmd line hline hobj hlong)
    rw [shell_exec_scan, hs.1] at hc
    simp only [] at hc
    rw [search_no_call reg cmd _ hs.2] at hc
    simp at hc

theorem C15_invoked_name_is_token_witness :
    names_ok ready.reg ∧ cstr (line_mem "help".toList) = some "help".toList ∧
      SHELL_CMD_MAX_SIZE < (line_mem "help".toList).length ∧
      ((shell_exec ready.reg (line_mem "help".toList)).ret.isSome = true →
        ∀ c ∈ (shell_exec ready.reg (line_mem "help".toList)).calls,
          c.idx < ready.reg.shell_func_list_size ∧
            (ready.reg.shell_func_list c.idx).cmd = header_token "help".toList) ∧
      shell_exec table_long (line_mem "abcdefghijklmnopq".toList) =
        undefined_run (line_mem "abcdefghijklmnopq".toList) :=
  ⟨names_ok_ready, by decide, by decide,
    (C15_invoked_name_is_token ready.reg (line_mem "help".toList) "help".toList
      names_ok_ready (by decide) (by decide)).1,
    (C15_invoked_name_is_token ready.reg (line_mem "help".toList) "help".toList
      names_ok_ready (by decide) (by decide)).2.2.2⟩

end Shell
